import Mathlib

/-!
Verification of the terradep graph-construction engine.

The definitions below are a shallow embedding of the Go sources:
  * `buildTree`, `groupByPath`, `groupByState` and the linking loop from the
    `terradep` package (`Scanner.Scan`'s tree construction),
  * the DOT encoder's `mapNodes` / `getAllChildren` from `encoding/graph.go`,
  * `parseTerraformRemoteStates` from the scanner,
  * `S3Stater.RemoteState` / `urlFromConfig` from the `state` package,
  * `MergeGraphs`, which is not present in the sources and is modelled from
    the specification (see its doc comment).

Go maps are modelled as association lists in some enumeration order; Go map
iteration nondeterminism is captured by quantifying over permutations of those
lists.  Pointer-typed `*Node` values are modelled as indices into a node store
(`List (BNode St)`); pointer mutation becomes functional update of the store.
Go panics inside graph construction are modelled as `Except.error` results.
-/

namespace Terradep

/-- Lookup in an association list, modelling a Go map read (`m[k]`). -/
def lookupA {κ β : Type} [DecidableEq κ] : List (κ × β) → κ → Option β
  | [], _ => none
  | (k, v) :: rest, key => if k = key then some v else lookupA rest key

/-- Index of the first occurrence of an element in a list. -/
def idxOfA {κ : Type} [DecidableEq κ] : List κ → κ → Option Nat
  | [], _ => none
  | x :: xs, k => if x = k then some 0 else (idxOfA xs k).map (· + 1)

/-- Functional update of the element at an index; out-of-range indices leave
the list unchanged (Go code never updates out of range here). -/
def updAt {α : Type} : List α → Nat → (α → α) → List α
  | [], _, _ => []
  | x :: xs, 0, f => f x :: xs
  | x :: xs, i + 1, f => x :: updAt xs i f

theorem lookupA_nil {κ β : Type} [DecidableEq κ] (k : κ) :
    lookupA ([] : List (κ × β)) k = none := rfl

theorem lookupA_cons {κ β : Type} [DecidableEq κ] (k₀ : κ) (v₀ : β) (rest : List (κ × β)) (k : κ) :
    lookupA ((k₀, v₀) :: rest) k = if k₀ = k then some v₀ else lookupA rest k := rfl

theorem lookupA_eq_none_iff {κ β : Type} [DecidableEq κ] (l : List (κ × β)) (k : κ) :
    lookupA l k = none ↔ k ∉ l.map Prod.fst := by
  induction l with
  | nil => simp [lookupA]
  | cons kv rest ih =>
    obtain ⟨k₀, v₀⟩ := kv
    simp only [lookupA, List.map_cons, List.mem_cons]
    by_cases h : k₀ = k
    · subst h
      simp
    · rw [if_neg h, ih]
      constructor
      · intro hn hmem
        rcases hmem with h1 | h2
        · exact h h1.symm
        · exact hn h2
      · intro hn h2
        exact hn (Or.inr h2)

theorem idxOfA_eq_none_iff {κ : Type} [DecidableEq κ] (l : List κ) (k : κ) :
    idxOfA l k = none ↔ k ∉ l := by
  induction l with
  | nil => simp [idxOfA]
  | cons x xs ih =>
    simp only [idxOfA, List.mem_cons]
    by_cases h : x = k
    · subst h
      simp
    · rw [if_neg h, Option.map_eq_none', ih]
      constructor
      · intro hn hmem
        rcases hmem with h1 | h2
        · exact h h1.symm
        · exact hn h2
      · intro hn h2
        exact hn (Or.inr h2)

theorem idxOfA_lt {κ : Type} [DecidableEq κ] (l : List κ) (k : κ) (j : Nat)
    (h : idxOfA l k = some j) : j < l.length := by
  induction l generalizing j with
  | nil => simp [idxOfA] at h
  | cons x xs ih =>
    by_cases hx : x = k
    · simp only [idxOfA, if_pos hx, Option.some.injEq] at h
      subst h
      simp
    · simp only [idxOfA, if_neg hx] at h
      cases hj : idxOfA xs k with
      | none => simp [hj] at h
      | some j' =>
        simp only [hj, Option.map_some', Option.some.injEq] at h
        subst h
        have := ih j' hj
        simp only [List.length_cons]
        omega

theorem idxOfA_getElem {κ : Type} [DecidableEq κ] (l : List κ) (k : κ) (j : Nat)
    (h : idxOfA l k = some j) : l[j]? = some k := by
  induction l generalizing j with
  | nil => simp [idxOfA] at h
  | cons x xs ih =>
    by_cases hx : x = k
    · simp only [idxOfA, if_pos hx] at h
      cases h
      simp [hx]
    · simp only [idxOfA, if_neg hx] at h
      cases hj : idxOfA xs k with
      | none => simp [hj] at h
      | some j' =>
        simp only [hj, Option.map_some'] at h
        cases h
        simpa using ih j' hj

theorem idxOfA_of_getElem_nodup {κ : Type} [DecidableEq κ] (l : List κ) (hnd : l.Nodup)
    (k : κ) (j : Nat) (h : l[j]? = some k) : idxOfA l k = some j := by
  induction l generalizing j with
  | nil => simp at h
  | cons x xs ih =>
    rcases List.nodup_cons.mp hnd with ⟨hx, hxs⟩
    cases j with
    | zero =>
      simp only [List.getElem?_cons_zero, Option.some.injEq] at h
      simp [idxOfA, h]
    | succ j' =>
      simp only [List.getElem?_cons_succ] at h
      have hk : k ∈ xs := by
        have := List.getElem?_eq_some_iff.mp h
        obtain ⟨hlt, hget⟩ := this
        exact hget ▸ List.getElem_mem hlt
      have hne : x ≠ k := fun hxk => hx (hxk ▸ hk)
      simp [idxOfA, hne, ih hxs j' h]

theorem length_updAt {α : Type} (l : List α) (i : Nat) (f : α → α) :
    (updAt l i f).length = l.length := by
  induction l generalizing i with
  | nil => rfl
  | cons x xs ih => cases i <;> simp [updAt, ih]

theorem getElem?_updAt_self {α : Type} (l : List α) (i : Nat) (f : α → α) :
    (updAt l i f)[i]? = (l[i]?).map f := by
  induction l generalizing i with
  | nil => simp [updAt]
  | cons x xs ih => cases i <;> simp [updAt, ih]

theorem getElem?_updAt_ne {α : Type} (l : List α) (i j : Nat) (f : α → α) (h : j ≠ i) :
    (updAt l i f)[j]? = l[j]? := by
  induction l generalizing i j with
  | nil => simp [updAt]
  | cons x xs ih =>
    cases i with
    | zero =>
      cases j with
      | zero => exact absurd rfl h
      | succ j' => simp [updAt]
    | succ i' =>
      cases j with
      | zero => simp [updAt]
      | succ j' => simpa [updAt] using ih i' j' (by omega)

theorem updAt_append_left {α : Type} (l t : List α) (i : Nat) (f : α → α) (h : i < l.length) :
    updAt (l ++ t) i f = updAt l i f ++ t := by
  induction l generalizing i with
  | nil => simp at h
  | cons x xs ih =>
    cases i with
    | zero => simp [updAt]
    | succ i' =>
      simp only [List.length_cons] at h
      simp [updAt, ih i' (by omega)]

theorem updAt_append_length {α : Type} (l : List α) (x : α) (f : α → α) :
    updAt (l ++ [x]) l.length f = l ++ [f x] := by
  induction l with
  | nil => rfl
  | cons y ys ih => simp [updAt, ih]

theorem updAt_append_length' {α : Type} (l : List α) (x : α) (f : α → α) (i : Nat)
    (h : i = l.length) : updAt (l ++ [x]) i f = l ++ [f x] := by
  subst h
  exact updAt_append_length l x f

theorem drop_updAt_lt {α : Type} (l : List α) (i m : Nat) (f : α → α) (h : i < m) :
    (updAt l i f).drop m = l.drop m := by
  induction l generalizing i m with
  | nil => simp [updAt]
  | cons x xs ih =>
    cases m with
    | zero => omega
    | succ m' =>
      cases i with
      | zero => simp [updAt]
      | succ i' => simpa [updAt] using ih i' m' (by omega)

theorem drop_append_le {α : Type} (l t : List α) (m : Nat) (h : m ≤ l.length) :
    (l ++ t).drop m = l.drop m ++ t := by
  induction l generalizing m with
  | nil =>
    simp at h
    simp [h]
  | cons x xs ih =>
    cases m with
    | zero => simp
    | succ m' =>
      simp only [List.length_cons] at h
      simpa using ih m' (by omega)

/-- Model of the Go `Node` struct (`terradep.Node`): `Parent` and `Children`
are `*Node` pointers in Go and become indices into the node store here.
External (synthesized) nodes keep the Go zero value `""` for `Path`. -/
structure BNode (St : Type) where
  path : String
  state : St
  parent : Option Nat
  children : List Nat
deriving Repr, DecidableEq

/-- Model of the Go `Graph` struct: `Heads` as indices into the node store.
The store keeps every node ever allocated by `buildTree`. -/
structure Graph (St : Type) where
  store : List (BNode St)
  heads : List Nat
deriving Repr, DecidableEq

/-- The panics that `buildTree`, `groupByPath` and `groupByState` can raise,
modelled as error values.  `missingParent` models the nil-pointer dereference
that would occur if a `deps` key had no node (never happens for scan output). -/
inductive BuildError
  | duplicatePath
  | duplicateState
  | missingParent
  | noRoots
deriving Repr, DecidableEq

/-- Decidable equality of `Except` results, used to evaluate the model on
concrete inputs. -/
instance {e a : Type} [DecidableEq e] [DecidableEq a] : DecidableEq (Except e a) := fun x y =>
  match x, y with
  | .ok u, .ok v =>
    if h : u = v then isTrue (by rw [h]) else isFalse (by intro hc; cases hc; exact h rfl)
  | .error u, .error v =>
    if h : u = v then isTrue (by rw [h]) else isFalse (by intro hc; cases hc; exact h rfl)
  | .ok _, .error _ => isFalse (by intro hc; cases hc)
  | .error _, .ok _ => isFalse (by intro hc; cases hc)

/-- Shared shape of Go `groupByPath` / `groupByState`: walk the nodes in order,
panic (here: `none`) when a key repeats, otherwise record key ↦ node index.
`i` is the index of the next node, `acc` the map built so far. -/
def mkIndex {κ : Type} [DecidableEq κ] : List (κ × Nat) → List κ → Nat → Option (List (κ × Nat))
  | acc, [], _ => some acc
  | acc, k :: ks, i =>
    match lookupA acc k with
    | some _ => none
    | none => mkIndex ((k, i) :: acc) ks (i + 1)

/-- Go `groupByPath(nodes)`: index the freshly created nodes by `Path`. -/
def groupByPath {St : Type} (states : List (String × St)) : Option (List (String × Nat)) :=
  mkIndex [] (states.map Prod.fst) 0

/-- Go `groupByState(nodes)`: index the freshly created nodes by `State`. -/
def groupByState {St : Type} [DecidableEq St] (states : List (String × St)) :
    Option (List (St × Nat)) :=
  mkIndex [] (states.map Prod.snd) 0

/-- Go `parentNode.Children = append(parentNode.Children, childNode)`. -/
def pushChild {St : Type} (cid : Nat) (n : BNode St) : BNode St :=
  { n with children := n.children ++ [cid] }

/-- Go `childNode.Parent = parentNode`. -/
def setParent {St : Type} (pid : Nat) (n : BNode St) : BNode St :=
  { n with parent := some pid }

/-- One iteration of the inner loop of `buildTree`: look the dependency state
up in `nodesByState`; if absent, allocate a fresh external node (the source
does NOT put it back into `nodesByState`); then append it to the parent's
children and overwrite its parent pointer. -/
def linkDep {St : Type} [DecidableEq St] (stateIdx : List (St × Nat)) (parentId : Nat)
    (store : List (BNode St)) (childState : St) : List (BNode St) :=
  match lookupA stateIdx childState with
  | some childId =>
      updAt (updAt store parentId (pushChild childId)) childId (setParent parentId)
  | none =>
      updAt (updAt (store ++ [⟨"", childState, none, []⟩]) parentId (pushChild store.length))
        store.length (setParent parentId)

/-- The inner loop of `buildTree` over one deployment's dependency list. -/
def linkDeps {St : Type} [DecidableEq St] (stateIdx : List (St × Nat)) (parentId : Nat)
    (store : List (BNode St)) (childStates : List St) : List (BNode St) :=
  childStates.foldl (linkDep stateIdx parentId) store

/-- The outer loop of `buildTree` over the `deps` map (in some enumeration
order).  A missing parent path would be a nil-pointer panic in Go. -/
def linkAll {St : Type} [DecidableEq St] (pathIdx : List (String × Nat))
    (stateIdx : List (St × Nat)) :
    List (BNode St) → List (String × List St) → Option (List (BNode St))
  | store, [] => some store
  | store, (parentPath, childStates) :: rest =>
    match lookupA pathIdx parentPath with
    | none => none
    | some parentId =>
        linkAll pathIdx stateIdx (linkDeps stateIdx parentId store childStates) rest

/-- The nodes `buildTree` creates from the scanned `states` map, in
enumeration order; node `i` is the model of the pointer `nodes[i]`. -/
def initNodes {St : Type} (states : List (String × St)) : List (BNode St) :=
  states.map fun ps => ⟨ps.1, ps.2, none, []⟩

/-- The `Parent` field of node `i`, `none` when `i` is out of range. -/
def parentAt {St : Type} (store : List (BNode St)) (i : Nat) : Option (Option Nat) :=
  (store[i]?).map BNode.parent

/-- The root-collection loop of `buildTree`: iterate the scanned nodes (only
those — externals are never considered) and keep those with `Parent == nil`. -/
def collectRoots {St : Type} (n : Nat) (store : List (BNode St)) : List Nat :=
  (List.range n).filter fun i => decide (parentAt store i = some none)

/-- Model of Go `buildTree(states, deps)`.  `states` and `deps` are the two
maps built by `Scanner.Scan`, given in some enumeration order.  Panics are
modelled as `Except.error`. -/
def buildTree {St : Type} [DecidableEq St] (states : List (String × St))
    (deps : List (String × List St)) : Except BuildError (Graph St) :=
  match groupByPath states with
  | none => .error .duplicatePath
  | some pathIdx =>
    match groupByState states with
    | none => .error .duplicateState
    | some stateIdx =>
      match linkAll pathIdx stateIdx (initNodes states) deps with
      | none => .error .missingParent
      | some store =>
        let roots := collectRoots states.length store
        if roots.isEmpty then .error .noRoots
        else .ok ⟨store, roots⟩

theorem mkIndex_isSome_iff {κ : Type} [DecidableEq κ] (ks : List κ) :
    ∀ (acc : List (κ × Nat)) (i : Nat),
      (mkIndex acc ks i).isSome ↔ ks.Nodup ∧ ∀ k ∈ ks, lookupA acc k = none := by
  induction ks with
  | nil => simp [mkIndex]
  | cons k ks ih =>
    intro acc i
    simp only [mkIndex]
    cases h : lookupA acc k with
    | some v =>
      simp only [Option.isSome_none, Bool.false_eq_true, false_iff, not_and]
      intro _ hall
      have := hall k (List.mem_cons_self k ks)
      rw [this] at h
      cases h
    | none =>
      rw [ih]
      simp only [List.nodup_cons, List.mem_cons]
      constructor
      · rintro ⟨hnd, hall⟩
        have hnotmem : k ∉ ks := by
          intro hk
          have := hall k hk
          rw [lookupA_cons] at this
          simp at this
        refine ⟨⟨hnotmem, hnd⟩, ?_⟩
        rintro x (rfl | hx)
        · exact h
        · have := hall x hx
          rw [lookupA_cons] at this
          split at this
          · cases this
          · exact this
      · rintro ⟨⟨hnotmem, hnd⟩, hall⟩
        refine ⟨hnd, ?_⟩
        intro x hx
        rw [lookupA_cons]
        split
        · next heq =>
          exact absurd (heq ▸ hx) hnotmem
        · exact hall x (Or.inr hx)

theorem mkIndex_lookupA {κ : Type} [DecidableEq κ] (ks : List κ) :
    ∀ (acc : List (κ × Nat)) (i : Nat) (m : List (κ × Nat)), mkIndex acc ks i = some m →
      ∀ k, lookupA m k =
        match idxOfA ks k with
        | some j => some (i + j)
        | none => lookupA acc k := by
  induction ks with
  | nil =>
    intro acc i m h k
    simp only [mkIndex, Option.some.injEq] at h
    subst h
    simp [idxOfA]
  | cons k0 ks ih =>
    intro acc i m h k
    simp only [mkIndex] at h
    cases h0 : lookupA acc k0 with
    | some v =>
      rw [h0] at h
      simp at h
    | none =>
      rw [h0] at h
      replace h : mkIndex ((k0, i) :: acc) ks (i + 1) = some m := h
      have hsome : (mkIndex ((k0, i) :: acc) ks (i + 1)).isSome := by
        rw [h]; rfl
      have hfacts := (mkIndex_isSome_iff ks ((k0, i) :: acc) (i + 1)).mp hsome
      have hk0 : k0 ∉ ks := by
        intro hk
        have := hfacts.2 k0 hk
        rw [lookupA_cons] at this
        simp at this
      have hm := ih ((k0, i) :: acc) (i + 1) m h k
      by_cases hkk : k = k0
      · subst hkk
        have hidx : idxOfA ks k = none := (idxOfA_eq_none_iff ks k).mpr hk0
        rw [hidx] at hm
        replace hm : lookupA m k = lookupA ((k, i) :: acc) k := hm
        rw [hm, lookupA_cons, if_pos rfl]
        have hidx2 : idxOfA (k :: ks) k = some 0 := by simp [idxOfA]
        rw [hidx2]
        show some i = some (i + 0)
        simp
      · have hne : ¬(k0 = k) := fun h' => hkk h'.symm
        cases hidx : idxOfA ks k with
        | some j =>
          rw [hidx] at hm
          replace hm : lookupA m k = some (i + 1 + j) := hm
          have hidx2 : idxOfA (k0 :: ks) k = some (j + 1) := by
            simp [idxOfA, hne, hidx]
          rw [hm, hidx2]
          show some (i + 1 + j) = some (i + (j + 1))
          simp only [Option.some.injEq]
          omega
        | none =>
          rw [hidx] at hm
          replace hm : lookupA m k = lookupA ((k0, i) :: acc) k := hm
          rw [hm, lookupA_cons, if_neg hne]
          have hidx2 : idxOfA (k0 :: ks) k = none := by
            simp [idxOfA, hne, hidx]
          rw [hidx2]

/-- The `(Path, State)` pair of node `j`; linking never changes it. -/
def pathStateAt {St : Type} (store : List (BNode St)) (j : Nat) : Option (String × St) :=
  (store[j]?).map fun nd => (nd.path, nd.state)

theorem parentAt_updAt_preserve {St : Type} (store : List (BNode St)) (p j : Nat)
    (f : BNode St → BNode St) (hf : ∀ nd, (f nd).parent = nd.parent) :
    parentAt (updAt store p f) j = parentAt store j := by
  by_cases h : j = p
  · subst h
    rw [parentAt, getElem?_updAt_self, parentAt]
    cases store[j]? <;> simp [hf]
  · rw [parentAt, getElem?_updAt_ne _ _ _ _ h, parentAt]

theorem pathStateAt_updAt_preserve {St : Type} (store : List (BNode St)) (p j : Nat)
    (f : BNode St → BNode St)
    (hf : ∀ nd, (f nd).path = nd.path ∧ (f nd).state = nd.state) :
    pathStateAt (updAt store p f) j = pathStateAt store j := by
  by_cases h : j = p
  · subst h
    rw [pathStateAt, getElem?_updAt_self, pathStateAt]
    cases store[j]? <;> simp [fun nd => (hf nd).1, fun nd => (hf nd).2]
  · rw [pathStateAt, getElem?_updAt_ne _ _ _ _ h, pathStateAt]

theorem pushChild_parent {St : Type} (cid : Nat) (nd : BNode St) :
    (pushChild cid nd).parent = nd.parent := rfl

theorem pushChild_pathState {St : Type} (cid : Nat) (nd : BNode St) :
    (pushChild cid nd).path = nd.path ∧ (pushChild cid nd).state = nd.state := ⟨rfl, rfl⟩

theorem setParent_pathState {St : Type} (pid : Nat) (nd : BNode St) :
    (setParent pid nd).path = nd.path ∧ (setParent pid nd).state = nd.state := ⟨rfl, rfl⟩

theorem length_le_linkDep {St : Type} [DecidableEq St] (idx : List (St × Nat)) (pid : Nat)
    (store : List (BNode St)) (c : St) :
    store.length ≤ (linkDep idx pid store c).length := by
  unfold linkDep
  cases lookupA idx c with
  | some cid => simp [length_updAt]
  | none => simp [length_updAt]

theorem getElem?_some_of_lt {α : Type} (l : List α) (i : Nat) (h : i < l.length) :
    ∃ a, l[i]? = some a :=
  ⟨l.get ⟨i, h⟩, List.getElem?_eq_some_iff.mpr ⟨h, rfl⟩⟩

theorem parentAt_linkDep {St : Type} [DecidableEq St] (idx : List (St × Nat)) (pid : Nat)
    (store : List (BNode St)) (c : St) (i n : Nat)
    (hi : i < n) (hn : n ≤ store.length)
    (hidx : ∀ x j, lookupA idx x = some j → j < n) :
    parentAt (linkDep idx pid store c) i =
      if lookupA idx c = some i then some (some pid) else parentAt store i := by
  unfold linkDep
  cases hc : lookupA idx c with
  | some cid =>
    have hcid : cid < n := hidx c cid hc
    by_cases hci : cid = i
    · subst hci
      rw [if_pos rfl, parentAt, getElem?_updAt_self]
      obtain ⟨nd, hnd⟩ := getElem?_some_of_lt (updAt store pid (pushChild cid)) cid
        (by rw [length_updAt]; omega)
      rw [hnd]
      simp [setParent]
    · rw [if_neg (by simp [hci])]
      have h1 : parentAt (updAt (updAt store pid (pushChild cid)) cid (setParent pid)) i
          = parentAt (updAt store pid (pushChild cid)) i := by
        rw [parentAt, getElem?_updAt_ne _ _ _ _ (fun hh => hci hh.symm), parentAt]
      rw [h1, parentAt_updAt_preserve store pid i (pushChild cid) (fun _ => rfl)]
  | none =>
    rw [if_neg (by simp)]
    have hislt : i < store.length := lt_of_lt_of_le hi hn
    have hine : i ≠ store.length := by omega
    have h1 : parentAt (updAt (updAt (store ++ [⟨"", c, none, []⟩]) pid
          (pushChild store.length)) store.length (setParent pid)) i
        = parentAt (updAt (store ++ [⟨"", c, none, []⟩]) pid (pushChild store.length)) i := by
      rw [parentAt, getElem?_updAt_ne _ _ _ _ hine, parentAt]
    rw [h1, parentAt_updAt_preserve _ pid i (pushChild store.length) (fun _ => rfl)]
    rw [parentAt, List.getElem?_append_left hislt, parentAt]

theorem pathStateAt_linkDep {St : Type} [DecidableEq St] (idx : List (St × Nat)) (pid : Nat)
    (store : List (BNode St)) (c : St) (j : Nat) (hj : j < store.length) :
    pathStateAt (linkDep idx pid store c) j = pathStateAt store j := by
  unfold linkDep
  cases hc : lookupA idx c with
  | some cid =>
    rw [pathStateAt_updAt_preserve _ cid j (setParent pid) (fun _ => ⟨rfl, rfl⟩),
      pathStateAt_updAt_preserve _ pid j (pushChild cid) (fun _ => ⟨rfl, rfl⟩)]
  | none =>
    have hjne : j ≠ store.length := by omega
    have h1 : pathStateAt (updAt (updAt (store ++ [⟨"", c, none, []⟩]) pid
          (pushChild store.length)) store.length (setParent pid)) j
        = pathStateAt (updAt (store ++ [⟨"", c, none, []⟩]) pid (pushChild store.length)) j := by
      rw [pathStateAt, getElem?_updAt_ne _ _ _ _ hjne, pathStateAt]
    rw [h1, pathStateAt_updAt_preserve _ pid j (pushChild store.length) (fun _ => ⟨rfl, rfl⟩)]
    rw [pathStateAt, List.getElem?_append_left hj, pathStateAt]

theorem linkDeps_nil {St : Type} [DecidableEq St] (idx : List (St × Nat)) (pid : Nat)
    (store : List (BNode St)) : linkDeps idx pid store [] = store := rfl

theorem linkDeps_cons {St : Type} [DecidableEq St] (idx : List (St × Nat)) (pid : Nat)
    (store : List (BNode St)) (c : St) (cs : List St) :
    linkDeps idx pid store (c :: cs) = linkDeps idx pid (linkDep idx pid store c) cs := rfl

theorem length_le_linkDeps {St : Type} [DecidableEq St] (idx : List (St × Nat)) (pid : Nat)
    (cs : List St) : ∀ store : List (BNode St), store.length ≤ (linkDeps idx pid store cs).length := by
  induction cs with
  | nil => intro store; simp [linkDeps]
  | cons c cs ih =>
    intro store
    rw [linkDeps_cons]
    exact le_trans (length_le_linkDep idx pid store c) (ih (linkDep idx pid store c))

theorem parentAt_linkDeps {St : Type} [DecidableEq St] (idx : List (St × Nat)) (pid : Nat)
    (cs : List St) (i n : Nat) (hi : i < n)
    (hidx : ∀ x j, lookupA idx x = some j → j < n) :
    ∀ store : List (BNode St), n ≤ store.length →
      (parentAt (linkDeps idx pid store cs) i = some none ↔
        parentAt store i = some none ∧ ∀ c ∈ cs, lookupA idx c ≠ some i) := by
  induction cs with
  | nil =>
    intro store _
    simp [linkDeps]
  | cons c cs ih =>
    intro store hn
    rw [linkDeps_cons]
    have hn' : n ≤ (linkDep idx pid store c).length :=
      le_trans hn (length_le_linkDep idx pid store c)
    rw [ih (linkDep idx pid store c) hn']
    rw [parentAt_linkDep idx pid store c i n hi hn hidx]
    by_cases hc : lookupA idx c = some i
    · rw [if_pos hc]
      simp only [List.mem_cons]
      constructor
      · rintro ⟨h1, _⟩
        cases h1
      · rintro ⟨_, hall⟩
        exact absurd hc (hall c (Or.inl rfl))
    · rw [if_neg hc]
      simp only [List.mem_cons]
      constructor
      · rintro ⟨h1, hall⟩
        refine ⟨h1, ?_⟩
        rintro x (rfl | hx)
        · exact hc
        · exact hall x hx
      · rintro ⟨h1, hall⟩
        exact ⟨h1, fun x hx => hall x (Or.inr hx)⟩

theorem pathStateAt_linkDeps {St : Type} [DecidableEq St] (idx : List (St × Nat)) (pid : Nat)
    (cs : List St) (j : Nat) :
    ∀ store : List (BNode St), j < store.length →
      pathStateAt (linkDeps idx pid store cs) j = pathStateAt store j := by
  induction cs with
  | nil =>
    intro store _
    simp [linkDeps]
  | cons c cs ih =>
    intro store hj
    rw [linkDeps_cons]
    have hj' : j < (linkDep idx pid store c).length :=
      lt_of_lt_of_le hj (length_le_linkDep idx pid store c)
    rw [ih (linkDep idx pid store c) hj', pathStateAt_linkDep idx pid store c j hj]

theorem linkAll_nil {St : Type} [DecidableEq St] (pathIdx : List (String × Nat))
    (stateIdx : List (St × Nat)) (store : List (BNode St)) :
    linkAll pathIdx stateIdx store [] = some store := rfl

theorem length_le_linkAll {St : Type} [DecidableEq St] (pathIdx : List (String × Nat))
    (stateIdx : List (St × Nat)) (deps : List (String × List St)) :
    ∀ store store' : List (BNode St), linkAll pathIdx stateIdx store deps = some store' →
      store.length ≤ store'.length := by
  induction deps with
  | nil =>
    intro store store' h
    simp only [linkAll, Option.some.injEq] at h
    subst h
    exact le_refl _
  | cons e rest ih =>
    intro store store' h
    obtain ⟨p, cs⟩ := e
    simp only [linkAll] at h
    cases hp : lookupA pathIdx p with
    | none => rw [hp] at h; cases h
    | some pid =>
      rw [hp] at h
      exact le_trans (length_le_linkDeps stateIdx pid cs store) (ih _ _ h)

theorem parentAt_linkAll {St : Type} [DecidableEq St] (pathIdx : List (String × Nat))
    (stateIdx : List (St × Nat)) (deps : List (String × List St)) (i n : Nat) (hi : i < n)
    (hidx : ∀ x j, lookupA stateIdx x = some j → j < n) :
    ∀ store store' : List (BNode St), linkAll pathIdx stateIdx store deps = some store' →
      n ≤ store.length →
      (parentAt store' i = some none ↔
        parentAt store i = some none ∧
          ∀ e ∈ deps, ∀ c ∈ e.2, lookupA stateIdx c ≠ some i) := by
  induction deps with
  | nil =>
    intro store store' h _
    simp only [linkAll, Option.some.injEq] at h
    subst h
    simp
  | cons e rest ih =>
    intro store store' h hn
    obtain ⟨p, cs⟩ := e
    simp only [linkAll] at h
    cases hp : lookupA pathIdx p with
    | none => rw [hp] at h; cases h
    | some pid =>
      rw [hp] at h
      have hn' : n ≤ (linkDeps stateIdx pid store cs).length :=
        le_trans hn (length_le_linkDeps stateIdx pid cs store)
      rw [ih _ _ h hn', parentAt_linkDeps stateIdx pid cs i n hi hidx store hn]
      simp only [List.mem_cons]
      constructor
      · rintro ⟨⟨h1, hcs⟩, hrest⟩
        refine ⟨h1, ?_⟩
        rintro x (rfl | hx)
        · exact hcs
        · exact hrest x hx
      · rintro ⟨h1, hall⟩
        exact ⟨⟨h1, hall (p, cs) (Or.inl rfl)⟩, fun x hx => hall x (Or.inr hx)⟩

theorem pathStateAt_linkAll {St : Type} [DecidableEq St] (pathIdx : List (String × Nat))
    (stateIdx : List (St × Nat)) (deps : List (String × List St)) (j : Nat) :
    ∀ store store' : List (BNode St), linkAll pathIdx stateIdx store deps = some store' →
      j < store.length → pathStateAt store' j = pathStateAt store j := by
  induction deps with
  | nil =>
    intro store store' h _
    simp only [linkAll, Option.some.injEq] at h
    subst h
    rfl
  | cons e rest ih =>
    intro store store' h hj
    obtain ⟨p, cs⟩ := e
    simp only [linkAll] at h
    cases hp : lookupA pathIdx p with
    | none => rw [hp] at h; cases h
    | some pid =>
      rw [hp] at h
      have hj' : j < (linkDeps stateIdx pid store cs).length :=
        lt_of_lt_of_le hj (length_le_linkDeps stateIdx pid cs store)
      rw [ih _ _ h hj', pathStateAt_linkDeps stateIdx pid cs j store hj]

theorem groupByPath_isSome_iff {St : Type} (states : List (String × St)) :
    (groupByPath states).isSome ↔ (states.map Prod.fst).Nodup := by
  rw [groupByPath, mkIndex_isSome_iff]
  simp [lookupA]

theorem groupByState_isSome_iff {St : Type} [DecidableEq St] (states : List (String × St)) :
    (groupByState states).isSome ↔ (states.map Prod.snd).Nodup := by
  rw [groupByState, mkIndex_isSome_iff]
  simp [lookupA]

theorem groupByPath_lookup {St : Type} (states : List (String × St))
    (pathIdx : List (String × Nat)) (h : groupByPath states = some pathIdx) (p : String) :
    lookupA pathIdx p = idxOfA (states.map Prod.fst) p := by
  have := mkIndex_lookupA (states.map Prod.fst) [] 0 pathIdx h p
  cases hidx : idxOfA (states.map Prod.fst) p with
  | some j =>
    rw [hidx] at this
    simpa using this
  | none =>
    rw [hidx] at this
    simpa [lookupA] using this

theorem groupByState_lookup {St : Type} [DecidableEq St] (states : List (String × St))
    (stateIdx : List (St × Nat)) (h : groupByState states = some stateIdx) (c : St) :
    lookupA stateIdx c = idxOfA (states.map Prod.snd) c := by
  have := mkIndex_lookupA (states.map Prod.snd) [] 0 stateIdx h c
  cases hidx : idxOfA (states.map Prod.snd) c with
  | some j =>
    rw [hidx] at this
    simpa using this
  | none =>
    rw [hidx] at this
    simpa [lookupA] using this

theorem length_initNodes {St : Type} (states : List (String × St)) :
    (initNodes states).length = states.length := by
  simp [initNodes]

theorem parentAt_initNodes {St : Type} (states : List (String × St)) (i : Nat)
    (hi : i < states.length) : parentAt (initNodes states) i = some none := by
  rw [parentAt, initNodes, List.getElem?_map]
  obtain ⟨ps, hps⟩ := getElem?_some_of_lt states i hi
  rw [hps]
  rfl

theorem pathStateAt_initNodes {St : Type} (states : List (String × St)) (j : Nat) :
    pathStateAt (initNodes states) j = states[j]? := by
  rw [pathStateAt, initNodes, List.getElem?_map]
  cases states[j]? <;> simp

theorem buildTree_ok_elim {St : Type} [DecidableEq St] (states : List (String × St))
    (deps : List (String × List St)) (g : Graph St) (h : buildTree states deps = .ok g) :
    ∃ pathIdx stateIdx store,
      groupByPath states = some pathIdx ∧ groupByState states = some stateIdx ∧
      linkAll pathIdx stateIdx (initNodes states) deps = some store ∧
      (collectRoots states.length store).isEmpty = false ∧
      g = ⟨store, collectRoots states.length store⟩ := by
  rw [buildTree] at h
  cases hp : groupByPath states with
  | none =>
    simp only [hp] at h
    cases h
  | some pIdx =>
    simp only [hp] at h
    cases hs : groupByState states with
    | none =>
      simp only [hs] at h
      cases h
    | some sIdx =>
      simp only [hs] at h
      cases hl : linkAll pIdx sIdx (initNodes states) deps with
      | none =>
        simp only [hl] at h
        cases h
      | some store =>
        simp only [hl] at h
        split at h
        · cases h
        · next hroots =>
          exact ⟨pIdx, sIdx, store, rfl, rfl, hl, by simpa using hroots, (Except.ok.inj h).symm⟩

theorem buildTree_stateIdx_bound {St : Type} [DecidableEq St] (states : List (String × St))
    (stateIdx : List (St × Nat)) (h : groupByState states = some stateIdx) :
    ∀ x j, lookupA stateIdx x = some j → j < states.length := by
  intro x j hx
  rw [groupByState_lookup states stateIdx h] at hx
  have := idxOfA_lt _ _ _ hx
  simpa using this

theorem buildTree_heads_mem {St : Type} [DecidableEq St] (states : List (String × St))
    (deps : List (String × List St)) (g : Graph St) (h : buildTree states deps = .ok g)
    (i : Nat) :
    i ∈ g.heads ↔ i < states.length ∧
      ∀ e ∈ deps, ∀ c ∈ e.2, ¬ ((states[i]?).map Prod.snd = some c) := by
  obtain ⟨pIdx, sIdx, store, hp, hs, hl, _, hg⟩ := buildTree_ok_elim states deps g h
  have hnd : (states.map Prod.snd).Nodup :=
    (groupByState_isSome_iff states).mp (by rw [hs]; rfl)
  have hidx := buildTree_stateIdx_bound states sIdx hs
  subst hg
  show i ∈ collectRoots states.length store ↔ _
  rw [collectRoots, List.mem_filter, List.mem_range, decide_eq_true_eq]
  constructor
  · rintro ⟨hilt, hpar⟩
    refine ⟨hilt, ?_⟩
    have hchar := parentAt_linkAll pIdx sIdx deps i states.length hilt hidx
      (initNodes states) store hl (by rw [length_initNodes])
    obtain ⟨_, hall⟩ := hchar.mp hpar
    intro e he c hc hcontra
    apply hall e he c hc
    rw [groupByState_lookup states sIdx hs]
    apply idxOfA_of_getElem_nodup _ hnd
    rw [List.getElem?_map]
    exact hcontra
  · rintro ⟨hilt, hall⟩
    refine ⟨hilt, ?_⟩
    rw [parentAt_linkAll pIdx sIdx deps i states.length hilt hidx
      (initNodes states) store hl (by rw [length_initNodes])]
    refine ⟨parentAt_initNodes states i hilt, ?_⟩
    intro e he c hc hcontra
    rw [groupByState_lookup states sIdx hs] at hcontra
    have := idxOfA_getElem _ _ _ hcontra
    rw [List.getElem?_map] at this
    exact hall e he c hc this

theorem buildTree_store_pathState {St : Type} [DecidableEq St] (states : List (String × St))
    (deps : List (String × List St)) (g : Graph St) (h : buildTree states deps = .ok g)
    (j : Nat) (hj : j < states.length) :
    pathStateAt g.store j = states[j]? := by
  obtain ⟨pIdx, sIdx, store, _, _, hl, _, hg⟩ := buildTree_ok_elim states deps g h
  subst hg
  show pathStateAt store j = states[j]?
  rw [pathStateAt_linkAll pIdx sIdx deps j (initNodes states) store hl
    (by rw [length_initNodes]; exact hj), pathStateAt_initNodes]

theorem buildTree_heads_eq_filter {St : Type} [DecidableEq St] (states : List (String × St))
    (deps : List (String × List St)) (g : Graph St) (h : buildTree states deps = .ok g) :
    ∃ store, g = ⟨store, collectRoots states.length store⟩ := by
  obtain ⟨pIdx, sIdx, store, _, _, _, _, hg⟩ := buildTree_ok_elim states deps g h
  exact ⟨store, hg⟩

theorem buildTree_ne_error_duplicatePath {St : Type} [DecidableEq St]
    (states : List (String × St)) (deps : List (String × List St))
    (h : (states.map Prod.fst).Nodup) :
    buildTree states deps ≠ .error .duplicatePath := by
  obtain ⟨pIdx, hp⟩ := Option.isSome_iff_exists.mp ((groupByPath_isSome_iff states).mpr h)
  intro hcontra
  rw [buildTree] at hcontra
  simp only [hp] at hcontra
  cases hs : groupByState states with
  | none =>
    simp only [hs] at hcontra
    simp at hcontra
  | some sIdx =>
    simp only [hs] at hcontra
    cases hl : linkAll pIdx sIdx (initNodes states) deps with
    | none =>
      simp only [hl] at hcontra
      simp at hcontra
    | some store =>
      simp only [hl] at hcontra
      split at hcontra
      · simp at hcontra
      · cases hcontra

theorem buildTree_duplicateState {St : Type} [DecidableEq St]
    (states : List (String × St)) (deps : List (String × List St))
    (hp : (states.map Prod.fst).Nodup) (hs : ¬ (states.map Prod.snd).Nodup) :
    buildTree states deps = .error .duplicateState := by
  obtain ⟨pIdx, hpi⟩ := Option.isSome_iff_exists.mp ((groupByPath_isSome_iff states).mpr hp)
  have hnone : groupByState states = none := by
    cases h : groupByState states with
    | none => rfl
    | some sIdx => exact absurd ((groupByState_isSome_iff states).mp (by rw [h]; rfl)) hs
  rw [buildTree]
  simp only [hpi, hnone]

theorem buildTree_ok_heads_ne_nil {St : Type} [DecidableEq St]
    (states : List (String × St)) (deps : List (String × List St)) (g : Graph St)
    (h : buildTree states deps = .ok g) : g.heads ≠ [] := by
  obtain ⟨pIdx, sIdx, store, _, _, _, hroots, hg⟩ := buildTree_ok_elim states deps g h
  subst hg
  show collectRoots states.length store ≠ []
  intro hnil
  rw [hnil] at hroots
  simp at hroots

/-- C3: for every set of deployment records, the heads of the graph built by
`buildTree` are exactly the locally-scanned nodes whose `State` is not
referenced as a dependency by any deployment record, and this classification
is identical for any permutation of the dependency entries (modelling the
unspecified Go map iteration order). -/
theorem c3_heads_exactly_unreferenced_order_independent {St : Type} [DecidableEq St]
    (states : List (String × St)) (deps deps' : List (String × List St)) (g g' : Graph St)
    (h : buildTree states deps = .ok g) (h' : buildTree states deps' = .ok g')
    (hperm : deps.Perm deps') :
    (∀ i, i ∈ g.heads ↔ i < states.length ∧
        ∀ e ∈ deps, ∀ c ∈ e.2, ¬ ((states[i]?).map Prod.snd = some c)) ∧
      g.heads = g'.heads := by
  refine ⟨buildTree_heads_mem states deps g h, ?_⟩
  obtain ⟨pIdx, sIdx, store1, hp1, hs1, hl1, _, hg1⟩ := buildTree_ok_elim states deps g h
  obtain ⟨pIdx2, sIdx2, store2, hp2, hs2, hl2, _, hg2⟩ := buildTree_ok_elim states deps' g' h'
  have hpe : pIdx2 = pIdx := by
    rw [hp1] at hp2
    exact (Option.some.inj hp2).symm
  have hse : sIdx2 = sIdx := by
    rw [hs1] at hs2
    exact (Option.some.inj hs2).symm
  rw [hpe, hse] at hl2
  subst hg1 hg2
  show collectRoots states.length store1 = collectRoots states.length store2
  rw [collectRoots, collectRoots]
  apply List.filter_congr
  intro i hi
  rw [List.mem_range] at hi
  rw [decide_eq_decide]
  have hidx := buildTree_stateIdx_bound states sIdx hs1
  rw [parentAt_linkAll pIdx sIdx deps i states.length hi hidx
      (initNodes states) store1 hl1 (by rw [length_initNodes]),
    parentAt_linkAll pIdx sIdx deps' i states.length hi hidx
      (initNodes states) store2 hl2 (by rw [length_initNodes])]
  constructor
  · rintro ⟨h0, hall⟩
    exact ⟨h0, fun e he => hall e (hperm.mem_iff.mpr he)⟩
  · rintro ⟨h0, hall⟩
    exact ⟨h0, fun e he => hall e (hperm.mem_iff.mp he)⟩

/-- Witness for C3 at a concrete two-deployment scan. -/
theorem c3_witness :
    (⟨[⟨"a", "sa", some 1, []⟩, ⟨"b", "sb", none, [0]⟩], [1]⟩ : Graph String).heads =
      (⟨[⟨"a", "sa", some 1, []⟩, ⟨"b", "sb", none, [0]⟩], [1]⟩ : Graph String).heads :=
  (c3_heads_exactly_unreferenced_order_independent
    [("a", "sa"), ("b", "sb")] [("a", []), ("b", ["sa"])] [("b", ["sa"]), ("a", [])]
    ⟨[⟨"a", "sa", some 1, []⟩, ⟨"b", "sb", none, [0]⟩], [1]⟩
    ⟨[⟨"a", "sa", some 1, []⟩, ⟨"b", "sb", none, [0]⟩], [1]⟩
    (by decide) (by decide) (by decide)).2

/-- C4: two deployment records with the same own `State` (and distinct paths,
as guaranteed by the path-keyed scan map) make graph construction fail with
the duplicate-state panic, under any enumeration order of the records, rather
than being merged or ignored. -/
theorem c4_duplicate_state_fatal {St : Type} [DecidableEq St]
    (states states' : List (String × St)) (deps : List (String × List St))
    (hperm : states.Perm states')
    (hp : (states.map Prod.fst).Nodup) (hs : ¬ (states.map Prod.snd).Nodup) :
    buildTree states' deps = .error .duplicateState := by
  apply buildTree_duplicateState
  · exact ((hperm.map Prod.fst).nodup_iff).mp hp
  · intro hh
    exact hs (((hperm.map Prod.snd).nodup_iff).mpr hh)

/-- Witness for C4: two records owning state `"s"`, enumerated in swapped
order, still fail with the duplicate-state error. -/
theorem c4_witness :
    buildTree [("b", "s"), ("a", "s")] ([] : List (String × List String)) =
      .error .duplicateState :=
  c4_duplicate_state_fatal [("a", "s"), ("b", "s")] [("b", "s"), ("a", "s")] []
    (by decide) (by decide) (by decide)

/-- C8: a scan that discovers zero deployment records reaches the zero-heads
check and panics (modelled as the `noRoots` error), and `buildTree` can never
return a graph with an empty `heads` list. -/
theorem c8_empty_scan_panics {St : Type} [DecidableEq St] :
    buildTree ([] : List (String × St)) [] = .error .noRoots ∧
      ∀ (states : List (String × St)) (deps : List (String × List St)) (g : Graph St),
        buildTree states deps = .ok g → g.heads ≠ [] :=
  ⟨rfl, buildTree_ok_heads_ne_nil⟩

/-- Witness for C8 at `St = String` and a concrete one-deployment scan. -/
theorem c8_witness :
    buildTree ([] : List (String × String)) [] = .error .noRoots ∧
      (⟨[⟨"a", "s", none, []⟩], [0]⟩ : Graph String).heads ≠ [] :=
  ⟨(@c8_empty_scan_panics String _).1,
    (@c8_empty_scan_panics String _).2 [("a", "s")] [] ⟨[⟨"a", "s", none, []⟩], [0]⟩ (by decide)⟩

/-- C9: every head of a constructed graph is a node created from a
locally-scanned deployment record (its `(path, state)` pair is one of the
scanned records, and its path is non-empty whenever all scanned paths are);
synthesized external nodes never appear among the heads. -/
theorem c9_heads_are_scanned_nodes {St : Type} [DecidableEq St]
    (states : List (String × St)) (deps : List (String × List St)) (g : Graph St)
    (h : buildTree states deps = .ok g) (hne : ∀ ps ∈ states, ps.1 ≠ "") :
    ∀ i ∈ g.heads, i < states.length ∧
      ∃ nd, g.store[i]? = some nd ∧ (nd.path, nd.state) ∈ states ∧ nd.path ≠ "" := by
  intro i hi
  obtain ⟨hilt, _⟩ := (buildTree_heads_mem states deps g h i).mp hi
  refine ⟨hilt, ?_⟩
  have hps := buildTree_store_pathState states deps g h i hilt
  obtain ⟨ps, hpsi⟩ := getElem?_some_of_lt states i hilt
  rw [hpsi, pathStateAt] at hps
  cases hnd : g.store[i]? with
  | none =>
    rw [hnd] at hps
    cases hps
  | some nd =>
    rw [hnd] at hps
    have hpair : (nd.path, nd.state) = ps := Option.some.inj hps
    have hmem2 : ps ∈ states := by
      obtain ⟨hlt, hget⟩ := List.getElem?_eq_some_iff.mp hpsi
      exact hget ▸ List.getElem_mem hlt
    refine ⟨nd, rfl, hpair ▸ hmem2, ?_⟩
    have := hne ps hmem2
    intro hcontra
    apply this
    rw [← hpair]
    exact hcontra

/-- Witness for C9 at a concrete scan with one external dependency. -/
theorem c9_witness :
    0 < ([("a", "sa")] : List (String × String)).length ∧
      ∃ nd, (⟨[⟨"a", "sa", none, [1]⟩, ⟨"", "sx", some 0, []⟩], [0]⟩ :
          Graph String).store[0]? = some nd ∧
        (nd.path, nd.state) ∈ [("a", "sa")] ∧ nd.path ≠ "" :=
  c9_heads_are_scanned_nodes [("a", "sa")] [("a", ["sx"])]
    ⟨[⟨"a", "sa", none, [1]⟩, ⟨"", "sx", some 0, []⟩], [0]⟩
    (by decide) (by decide) 0 (by decide)

/-- C10: when the scanned records come keyed by path (pairwise-distinct
paths), the duplicate-path failure branch of `groupByPath` is unreachable:
the path index is built successfully and `buildTree` never reports the
duplicate-path error. -/
theorem c10_duplicate_path_unreachable {St : Type} [DecidableEq St]
    (states : List (String × St)) (deps : List (String × List St))
    (h : (states.map Prod.fst).Nodup) :
    (groupByPath states).isSome ∧ buildTree states deps ≠ .error .duplicatePath :=
  ⟨(groupByPath_isSome_iff states).mpr h, buildTree_ne_error_duplicatePath states deps h⟩

/-- Witness for C10 at a concrete two-record scan with distinct paths. -/
theorem c10_witness :
    (groupByPath [("a", "sa"), ("b", "sb")]).isSome ∧
      buildTree [("a", "sa"), ("b", "sb")] ([] : List (String × List String)) ≠
        .error .duplicatePath :=
  c10_duplicate_path_unreachable [("a", "sa"), ("b", "sb")] [] (by decide)

/-- Observable shape of a node for the external-node characterization:
path, state, children and whether a parent is recorded. -/
def extProj {St : Type} (nd : BNode St) : String × St × List Nat × Bool :=
  (nd.path, nd.state, nd.children, nd.parent.isSome)

/-- The dependency references (in processing order) whose `State` is not in
the state index, i.e. has no locally-scanned owner. -/
def unownedRefs {St : Type} [DecidableEq St] (sIdx : List (St × Nat)) :
    List (String × List St) → List St
  | [] => []
  | e :: rest => (e.2.filter fun c => decide (lookupA sIdx c = none)) ++ unownedRefs sIdx rest

/-- The dependency references (in processing order) whose `State` is not the
own state of any scanned record. -/
def unownedDepStates {St : Type} [DecidableEq St] (states : List (String × St)) :
    List (String × List St) → List St
  | [] => []
  | e :: rest =>
    (e.2.filter fun c => decide (c ∉ states.map Prod.snd)) ++ unownedDepStates states rest

theorem drop_linkDep {St : Type} [DecidableEq St] (idx : List (St × Nat)) (pid : Nat)
    (store : List (BNode St)) (c : St) (n : Nat) (hn : n ≤ store.length) (hpid : pid < n)
    (hidx : ∀ x j, lookupA idx x = some j → j < n) :
    (linkDep idx pid store c).drop n =
      store.drop n ++
        (if lookupA idx c = none then [⟨"", c, some pid, []⟩] else []) := by
  unfold linkDep
  cases hc : lookupA idx c with
  | some cid =>
    have hcid : cid < n := hidx c cid hc
    rw [if_neg (by simp)]
    rw [drop_updAt_lt _ _ _ _ hcid, drop_updAt_lt _ _ _ _ hpid, List.append_nil]
  | none =>
    rw [if_pos rfl]
    have hplt : pid < store.length := lt_of_lt_of_le hpid hn
    show (updAt (updAt (store ++ [⟨"", c, none, []⟩]) pid (pushChild store.length))
        store.length (setParent pid)).drop n =
      store.drop n ++ [⟨"", c, some pid, []⟩]
    rw [updAt_append_left store [⟨"", c, none, []⟩] pid (pushChild store.length) hplt]
    rw [updAt_append_length' (updAt store pid (pushChild store.length)) ⟨"", c, none, []⟩
      (setParent pid) store.length (length_updAt store pid (pushChild store.length)).symm]
    rw [drop_append_le (updAt store pid (pushChild store.length)) _ n
      (by rw [length_updAt]; exact hn)]
    rw [drop_updAt_lt store pid n (pushChild store.length) hpid]
    rfl

theorem drop_linkDeps {St : Type} [DecidableEq St] (idx : List (St × Nat)) (pid : Nat)
    (cs : List St) (n : Nat) (hpid : pid < n)
    (hidx : ∀ x j, lookupA idx x = some j → j < n) :
    ∀ store : List (BNode St), n ≤ store.length →
      (linkDeps idx pid store cs).drop n =
        store.drop n ++
          (cs.filter fun c => decide (lookupA idx c = none)).map
            (fun c => ⟨"", c, some pid, []⟩) := by
  induction cs with
  | nil =>
    intro store _
    simp [linkDeps]
  | cons c cs ih =>
    intro store hn
    rw [linkDeps_cons]
    have hn' : n ≤ (linkDep idx pid store c).length :=
      le_trans hn (length_le_linkDep idx pid store c)
    rw [ih (linkDep idx pid store c) hn', drop_linkDep idx pid store c n hn hpid hidx]
    by_cases hc : lookupA idx c = none
    · rw [if_pos hc, List.filter_cons_of_pos (by simpa using hc)]
      simp [List.append_assoc]
    · rw [if_neg hc, List.filter_cons_of_neg (by simpa using hc), List.append_nil]

theorem drop_linkAll_extProj {St : Type} [DecidableEq St] (pIdx : List (String × Nat))
    (sIdx : List (St × Nat)) (deps : List (String × List St)) (n : Nat)
    (hpIdx : ∀ p j, lookupA pIdx p = some j → j < n)
    (hsIdx : ∀ x j, lookupA sIdx x = some j → j < n) :
    ∀ store store' : List (BNode St), linkAll pIdx sIdx store deps = some store' →
      n ≤ store.length →
      (store'.drop n).map extProj =
        (store.drop n).map extProj ++
          (unownedRefs sIdx deps).map (fun c => ("", c, [], true)) := by
  induction deps with
  | nil =>
    intro store store' h _
    simp only [linkAll, Option.some.injEq] at h
    subst h
    simp [unownedRefs]
  | cons e rest ih =>
    intro store store' h hn
    obtain ⟨p, cs⟩ := e
    simp only [linkAll] at h
    cases hp : lookupA pIdx p with
    | none => rw [hp] at h; cases h
    | some pid =>
      rw [hp] at h
      have hpid : pid < n := hpIdx p pid hp
      have hn' : n ≤ (linkDeps sIdx pid store cs).length :=
        le_trans hn (length_le_linkDeps sIdx pid cs store)
      rw [ih _ _ h hn', drop_linkDeps sIdx pid cs n hpid hsIdx store hn]
      rw [List.map_append, List.map_map]
      rw [unownedRefs]
      rw [List.map_append, List.append_assoc]
      rfl

theorem unownedRefs_eq_unownedDepStates {St : Type} [DecidableEq St]
    (states : List (String × St)) (sIdx : List (St × Nat))
    (hs : groupByState states = some sIdx) (deps : List (String × List St)) :
    unownedRefs sIdx deps = unownedDepStates states deps := by
  induction deps with
  | nil => rfl
  | cons e rest ih =>
    rw [unownedRefs, unownedDepStates, ih]
    congr 1
    apply List.filter_congr
    intro c _
    rw [decide_eq_decide]
    rw [groupByState_lookup states sIdx hs, idxOfA_eq_none_iff]

/-- C1 counterexample: two records `a` and `b` both referencing the unknown
state `"sx"` produce TWO distinct external nodes carrying `"sx"` — the
synthesized node is not inserted into the state index, so the second
reference does not reuse the first node. -/
theorem c1_cex :
    (buildTree [("a", "sa"), ("b", "sb")] [("a", ["sx"]), ("b", ["sx"])]).map
      (fun g => (g.store.filter fun nd => decide (nd.state = "sx")).length) =
      Except.ok 2 := by decide

/-- C1 amended: for each dependency reference whose `State` has no
locally-scanned owner, `buildTree` synthesizes a FRESH external node (empty
path, no children, parent recorded) — one per reference occurrence, in
processing order; the node is not inserted into the state index, so a later
reference to the same `State` creates a second distinct node. -/
theorem c1_fresh_node_per_reference {St : Type} [DecidableEq St]
    (states : List (String × St)) (deps : List (String × List St)) (g : Graph St)
    (h : buildTree states deps = .ok g) :
    (g.store.drop states.length).map extProj =
      (unownedDepStates states deps).map (fun c => ("", c, [], true)) := by
  obtain ⟨pIdx, sIdx, store, hp, hs, hl, _, hg⟩ := buildTree_ok_elim states deps g h
  have hpIdx : ∀ p j, lookupA pIdx p = some j → j < states.length := by
    intro p j hx
    rw [groupByPath_lookup states pIdx hp] at hx
    have := idxOfA_lt _ _ _ hx
    simpa using this
  have hsIdx := buildTree_stateIdx_bound states sIdx hs
  subst hg
  show (store.drop states.length).map extProj = _
  rw [drop_linkAll_extProj pIdx sIdx deps states.length hpIdx hsIdx
    (initNodes states) store hl (by rw [length_initNodes])]
  have hdrop : (initNodes states).drop states.length = [] := by
    rw [← length_initNodes states, List.drop_length]
  rw [hdrop, unownedRefs_eq_unownedDepStates states sIdx hs deps]
  rfl

/-- Witness for the amended C1 at the counterexample scan: the two unowned
references to `"sx"` yield exactly the two external entries. -/
theorem c1_witness :
    ((⟨[⟨"a", "sa", none, [2]⟩, ⟨"b", "sb", none, [3]⟩,
        ⟨"", "sx", some 0, []⟩, ⟨"", "sx", some 1, []⟩], [0, 1]⟩ : Graph String).store.drop
          2).map extProj =
      (unownedDepStates [("a", "sa"), ("b", "sb")] [("a", ["sx"]), ("b", ["sx"])]).map
        (fun c => ("", c, [], true)) :=
  c1_fresh_node_per_reference [("a", "sa"), ("b", "sb")] [("a", ["sx"]), ("b", ["sx"])]
    ⟨[⟨"a", "sa", none, [2]⟩, ⟨"b", "sb", none, [3]⟩,
      ⟨"", "sx", some 0, []⟩, ⟨"", "sx", some 1, []⟩], [0, 1]⟩ (by decide)

/-- The `Children` list of node `i` resolved from the store (empty when out
of range; Go would dereference a valid pointer here). -/
def childrenAt {St : Type} (store : List (BNode St)) (i : Nat) : List Nat :=
  ((store[i]?).map BNode.children).getD []

/-- Go `getAllChildren(n)` from `encoding/graph.go`: the node's children
followed by their transitive children, duplicates included.  `fuel` bounds
the recursion depth (the Go function recurses on the pointer structure and
would not terminate on a cyclic one). -/
def getAllChildren {St : Type} (store : List (BNode St)) : Nat → Nat → List Nat
  | 0, _ => []
  | fuel + 1, i =>
    childrenAt store i ++ ((childrenAt store i).map (getAllChildren store fuel)).flatten

/-- The `depNodes` slice built by Go `mapNodes`: each head followed by all
its transitively reachable children, duplicates included. -/
def depNodes {St : Type} (fuel : Nat) (g : Graph St) : List Nat :=
  (g.heads.map (fun h => h :: getAllChildren g.store fuel h)).flatten

/-- The `Path` of node `i` (`""` when out of range; external nodes carry
`""` themselves). -/
def pathAt {St : Type} (store : List (BNode St)) (i : Nat) : String :=
  ((store[i]?).map BNode.path).getD ""

/-- Go map write `out[key] = node`: replace an existing binding, else add. -/
def upsert : List (String × Nat) → String → Nat → List (String × Nat)
  | [], k, v => [(k, v)]
  | (k', v') :: rest, k, v =>
    if k' = k then (k, v) :: rest else (k', v') :: upsert rest k v

/-- Go `mapNodes(dep)` from `encoding/graph.go`: fold the reachable-node
occurrences into a map keyed by `Path` (later occurrences overwrite earlier
ones).  The occurrence ids that `toGraphNodes` assigns are collapsed to store
ids here; distinct map entries still denote distinct DOT vertices. -/
def mapNodes {St : Type} (fuel : Nat) (g : Graph St) : List (String × Nat) :=
  (depNodes fuel g).foldl (fun m i => upsert m (pathAt g.store i) i) []

/-- The edge-emission loop of Go `BuildDOTGraph`: for every node retained in
`nodeByPath` and every entry of its children list, one line from the node to
`nodeByPath[child.Path]` (the Go zero value, id 0, would be used for a
missing key). -/
def edgeLines {St : Type} (store : List (BNode St)) (m : List (String × Nat)) :
    List (String × Nat) → List (Nat × Nat)
  | [] => []
  | (_, i) :: rest =>
    (childrenAt store i).map (fun c => (i, (lookupA m (pathAt store c)).getD 0)) ++
      edgeLines store m rest

/-- The full edge list of Go `BuildDOTGraph` over the path-keyed node map. -/
def dotEdges {St : Type} (fuel : Nat) (g : Graph St) : List (Nat × Nat) :=
  edgeLines g.store (mapNodes fuel g) (mapNodes fuel g)

theorem upsert_cons_eq (k : String) (v v' : Nat) (rest : List (String × Nat)) :
    upsert ((k, v') :: rest) k v = (k, v) :: rest := by
  simp [upsert]

theorem upsert_cons_ne (k' k : String) (v v' : Nat) (rest : List (String × Nat))
    (h : k' ≠ k) : upsert ((k', v') :: rest) k v = (k', v') :: upsert rest k v := by
  simp [upsert, h]

theorem upsert_keys_mem (k : String) (v : Nat) (p : String) :
    ∀ m : List (String × Nat),
      (p ∈ (upsert m k v).map Prod.fst ↔ p ∈ m.map Prod.fst ∨ p = k) := by
  intro m
  induction m with
  | nil => simp [upsert]
  | cons kv rest ih =>
    obtain ⟨k', v'⟩ := kv
    by_cases h : k' = k
    · subst h
      rw [upsert_cons_eq]
      simp only [List.map_cons, List.mem_cons]
      tauto
    · rw [upsert_cons_ne k' k v v' rest h]
      simp only [List.map_cons, List.mem_cons, ih]
      tauto

theorem upsert_keys_nodup (k : String) (v : Nat) :
    ∀ m : List (String × Nat), (m.map Prod.fst).Nodup →
      ((upsert m k v).map Prod.fst).Nodup := by
  intro m
  induction m with
  | nil =>
    intro _
    simp [upsert]
  | cons kv rest ih =>
    intro h
    obtain ⟨k', v'⟩ := kv
    rw [List.map_cons, List.nodup_cons] at h
    obtain ⟨hk', hrest⟩ := h
    by_cases hkk : k' = k
    · subst hkk
      rw [upsert_cons_eq]
      rw [List.map_cons, List.nodup_cons]
      exact ⟨hk', hrest⟩
    · rw [upsert_cons_ne k' k v v' rest hkk]
      rw [List.map_cons, List.nodup_cons]
      refine ⟨?_, ih hrest⟩
      rw [upsert_keys_mem]
      rintro (hmem | rfl)
      · exact hk' hmem
      · exact hkk rfl

theorem mapNodes_fold_keys_nodup {St : Type} (store : List (BNode St)) (l : List Nat) :
    ∀ m : List (String × Nat), (m.map Prod.fst).Nodup →
      ((l.foldl (fun m i => upsert m (pathAt store i) i) m).map Prod.fst).Nodup := by
  induction l with
  | nil => intro m hm; exact hm
  | cons i l ih =>
    intro m hm
    exact ih _ (upsert_keys_nodup (pathAt store i) i m hm)

theorem mapNodes_fold_keys_mem {St : Type} (store : List (BNode St)) (l : List Nat) :
    ∀ (m : List (String × Nat)) (p : String),
      (p ∈ (l.foldl (fun m i => upsert m (pathAt store i) i) m).map Prod.fst ↔
        p ∈ m.map Prod.fst ∨ ∃ i ∈ l, pathAt store i = p) := by
  induction l with
  | nil =>
    intro m p
    simp
  | cons i l ih =>
    intro m p
    rw [List.foldl_cons, ih, upsert_keys_mem]
    constructor
    · rintro ((hp | rfl) | ⟨j, hj, hpj⟩)
      · exact Or.inl hp
      · exact Or.inr ⟨i, List.mem_cons_self i l, rfl⟩
      · exact Or.inr ⟨j, List.mem_cons_of_mem i hj, hpj⟩
    · rintro (hp | ⟨j, hj, hpj⟩)
      · exact Or.inl (Or.inl hp)
      · rcases List.mem_cons.mp hj with rfl | hj'
        · exact Or.inl (Or.inr hpj.symm)
        · exact Or.inr ⟨j, hj', hpj⟩

theorem edgeLines_length {St : Type} (store : List (BNode St)) (m : List (String × Nat)) :
    ∀ l : List (String × Nat),
      (edgeLines store m l).length =
        (l.map fun kv => (childrenAt store kv.2).length).sum := by
  intro l
  induction l with
  | nil => simp [edgeLines]
  | cons kv rest ih =>
    obtain ⟨k, i⟩ := kv
    simp [edgeLines, ih]

/-- C2 counterexample: one scanned deployment referencing two distinct
unknown states yields three distinct reachable nodes but only two entries in
the encoder's vertex map — the two external nodes (both with empty `Path`)
collapse into one vertex, because `mapNodes` deduplicates by `Path`, not by
node identity. -/
theorem c2_cex :
    (buildTree [("h", "sh")] [("h", ["sx", "sy"])]).map
      (fun g => ((mapNodes 3 g).length, (depNodes 3 g).dedup.length)) =
      Except.ok (2, 3) := by decide

/-- C2 amended: the encoder deduplicates the reachable node occurrences by
`Path`, not by node identity: the vertex map has pairwise-distinct path keys
and contains a vertex for path `p` iff some reachable occurrence has path
`p` (so a node reachable from two heads yields one vertex, but distinct
external nodes all collapse into the single empty-path vertex), and it emits
one edge per children entry of every retained per-path representative. -/
theorem c2_encoder_dedups_by_path {St : Type} [DecidableEq St] (fuel : Nat) (g : Graph St) :
    ((mapNodes fuel g).map Prod.fst).Nodup ∧
      (∀ p, p ∈ (mapNodes fuel g).map Prod.fst ↔
        ∃ i ∈ depNodes fuel g, pathAt g.store i = p) ∧
      (dotEdges fuel g).length =
        ((mapNodes fuel g).map fun kv => (childrenAt g.store kv.2).length).sum := by
  refine ⟨?_, ?_, ?_⟩
  · exact mapNodes_fold_keys_nodup g.store (depNodes fuel g) [] (by simp)
  · intro p
    rw [mapNodes, mapNodes_fold_keys_mem]
    simp
  · exact edgeLines_length g.store (mapNodes fuel g) (mapNodes fuel g)

/-- Model of an HCL `data` block as `parseTerraformRemoteStates` sees it
after `PartialContent`: the two labels, and the result of `parseRemoteState`
on its body (backend name and config), `none` when decoding or evaluating
the body fails. -/
structure HBlock (Cfg : Type) where
  label0 : String
  label1 : String
  decoded : Option (String × Cfg)
deriving Repr, DecidableEq

/-- The per-block loop of Go `parseTerraformRemoteStates`: skip blocks whose
first label is not `terraform_remote_state`; fail on a missing name, a body
that does not decode, or a resolver error; otherwise collect the resolved
states in order.  The resolver (`s.stater.RemoteState`) is a parameter. -/
def parseBlocks {Cfg St : Type} (resolve : String → Cfg → Except String St) :
    List (HBlock Cfg) → Except String (List St)
  | [] => .ok []
  | b :: bs =>
    if b.label0 ≠ "terraform_remote_state" then parseBlocks resolve bs
    else if b.label1 = "" then .error "block does not have the name"
    else
      match b.decoded with
      | none => .error "parsing terraform remote state"
      | some (backend, cfg) =>
        match resolve backend cfg with
        | .error e => .error e
        | .ok st => (parseBlocks resolve bs).map (fun sts => st :: sts)

/-- Go `parseTerraformRemoteStates` after the file has been parsed into its
blocks: run the loop, then fail unless exactly as many states were resolved
as there are declared `terraform_remote_state` resources in the file. -/
def parseTerraformRemoteStates {Cfg St : Type} (resolve : String → Cfg → Except String St)
    (blocks : List (HBlock Cfg)) (numResources : Nat) : Except String (List St) :=
  match parseBlocks resolve blocks with
  | .error e => .error e
  | .ok sts => if sts.length ≠ numResources then .error "count mismatch" else .ok sts

/-- C6: whenever `parseTerraformRemoteStates` succeeds, the number of
resolved dependency states equals the number of declared
`terraform_remote_state` blocks; a count mismatch is reported as an error
instead of returning a partial list. -/
theorem c6_no_incomplete_resolution {Cfg St : Type} (resolve : String → Cfg → Except String St)
    (blocks : List (HBlock Cfg)) (numResources : Nat) (sts : List St)
    (h : parseTerraformRemoteStates resolve blocks numResources = .ok sts) :
    sts.length = numResources := by
  rw [parseTerraformRemoteStates] at h
  cases hb : parseBlocks resolve blocks with
  | error e =>
    simp only [hb] at h
    cases h
  | ok l =>
    simp only [hb] at h
    split at h
    · cases h
    · next hcond =>
      cases h
      exact not_not.mp hcond

/-- Witness for C6 at a concrete one-block file with one declared resource. -/
theorem c6_witness : (["s3://b/k"] : List String).length = 1 :=
  c6_no_incomplete_resolution
    (fun b _ => if b = "s3" then Except.ok "s3://b/k" else Except.error "unsupported")
    [(⟨"terraform_remote_state", "net", some ("s3", ())⟩ : HBlock Unit)] 1 ["s3://b/k"]
    (by decide)

/-- Model of the `cty.Value`s that can appear in a remote-state `config`
object: strings, booleans, anything else. -/
inductive CtyVal
  | str (s : String)
  | boolean (b : Bool)
  | other
deriving Repr, DecidableEq

/-- Go `value.AsString()`, called by the source only on the attributes it
reads; cty panics on non-strings, modelled as `""` (the determinism claim
concerns valid configs, whose relevant attributes are strings). -/
def ctyAsString : CtyVal → String
  | .str s => s
  | _ => ""

/-- Go `value.RawEquals(cty.True)`. -/
def ctyIsTrue : CtyVal → Bool
  | .boolean b => b
  | _ => false

/-- The `s3Config` struct of the `state` package. -/
structure s3Config where
  bucket : String
  key : String
  region : String
  encrypt : Bool
deriving Repr, DecidableEq

/-- The `s3StaterCfg` struct of the `state` package: the two equality
toggles installed by `WithS3Region` / `WithS3Encryption`. -/
structure s3StaterCfg where
  region : Bool
  encryption : Bool
deriving Repr, DecidableEq

/-- One iteration of the `for key, value := range stateCfg` switch in
`S3Stater.RemoteState`. -/
def applyKV (cfg : s3Config) (kv : String × CtyVal) : s3Config :=
  if kv.1 = "bucket" then { cfg with bucket := ctyAsString kv.2 }
  else if kv.1 = "key" then { cfg with key := ctyAsString kv.2 }
  else if kv.1 = "region" then { cfg with region := ctyAsString kv.2 }
  else if kv.1 = "encrypt" then { cfg with encrypt := ctyIsTrue kv.2 }
  else cfg

/-- The config-reading loop of `S3Stater.RemoteState`, starting from the Go
zero value of `s3Config` and visiting the map in some enumeration order. -/
def readS3Config (stateCfg : List (String × CtyVal)) : s3Config :=
  stateCfg.foldl applyKV ⟨"", "", "", false⟩

/-- The query pairs `urlFromConfig` sets on the copy returned by
`u.Query()`.  The source never writes them back to `u.RawQuery`, so they are
absent from the rendered URL. -/
def queryPairs (cfg : s3StaterCfg) (c : s3Config) : List (String × String) :=
  (if cfg.region then [("region", c.region)] else []) ++
    (if cfg.encryption then [("encrypt", toString c.encrypt)] else [])

/-- Go `S3Stater.urlFromConfig`: build a `net/url` URL with scheme `s3`,
host = bucket, path = key, and render it (`URL.String` inserts `/` before a
relative path after a non-empty host; percent-escaping is not modelled).
The computed query pairs are discarded, exactly as in the source. -/
def urlFromConfig (cfg : s3StaterCfg) (c : s3Config) : String :=
  let _q := queryPairs cfg c
  "s3:" ++ (if c.bucket ≠ "" ∨ c.key ≠ "" then "//" else "") ++ c.bucket ++
    (if c.key ≠ "" ∧ ¬ c.key.startsWith "/" ∧ c.bucket ≠ "" then "/" else "") ++ c.key

/-- Go `S3Stater.RemoteState`: reject any backend other than `s3`, fold the
config map into an `s3Config`, render the state URL. -/
def RemoteState (cfg : s3StaterCfg) (backend : String)
    (stateCfg : List (String × CtyVal)) : Except String String :=
  if backend ≠ "s3" then .error ("supported backend type s3, got: " ++ backend)
  else .ok (urlFromConfig cfg (readS3Config stateCfg))

/-- Go `s3StateURL.String`: an `s3StateURL` renders as its own string. -/
def renderState (u : String) : String := u

theorem applyKV_comm (x y : String × CtyVal) (hxy : x = y ∨ x.1 ≠ y.1) :
    ∀ cfg, applyKV (applyKV cfg x) y = applyKV (applyKV cfg y) x := by
  intro cfg
  rcases hxy with rfl | hne
  · rfl
  · obtain ⟨xk, xv⟩ := x
    obtain ⟨yk, yv⟩ := y
    simp only [applyKV]
    split_ifs <;> first
      | rfl
      | (exfalso; apply hne; simp_all)

theorem readS3Config_perm (l l' : List (String × CtyVal)) (hperm : l.Perm l')
    (hnd : (l.map Prod.fst).Nodup) : readS3Config l = readS3Config l' := by
  rw [readS3Config, readS3Config]
  apply hperm.foldl_eq'
  intro x hx y hy z
  apply applyKV_comm
  by_cases hxy : x.1 = y.1
  · exact Or.inl (List.inj_on_of_nodup_map hnd hx hy hxy)
  · exact Or.inr hxy

/-- C7: resolving the same valid `(backendType, config)` input twice with
the same resolver configuration — the config map enumerated in any two
orders — yields the same result; successful results compare equal and render
to identical strings.  Resolution is a pure function of its arguments and the
resolver's toggles. -/
theorem c7_resolver_deterministic (cfg : s3StaterCfg) (backend : String)
    (l l' : List (String × CtyVal)) (hperm : l.Perm l')
    (hnd : (l.map Prod.fst).Nodup) :
    RemoteState cfg backend l = RemoteState cfg backend l' ∧
      ∀ u u', RemoteState cfg backend l = .ok u → RemoteState cfg backend l' = .ok u' →
        u = u' ∧ renderState u = renderState u' := by
  have hcfg : readS3Config l = readS3Config l' := readS3Config_perm l l' hperm hnd
  constructor
  · rw [RemoteState, RemoteState, hcfg]
  · intro u u' hu hu'
    rw [RemoteState, hcfg] at hu
    rw [RemoteState] at hu'
    have huu := Except.ok.inj (hu.symm.trans hu')
    exact ⟨huu, by rw [renderState, renderState, huu]⟩

/-- Witness for C7: the same s3 config enumerated in two orders resolves to
the same state URL. -/
theorem c7_witness :
    RemoteState ⟨true, true⟩ "s3"
        [("bucket", CtyVal.str "b"), ("key", CtyVal.str "net/state")] =
      RemoteState ⟨true, true⟩ "s3"
        [("key", CtyVal.str "net/state"), ("bucket", CtyVal.str "b")] :=
  (c7_resolver_deterministic ⟨true, true⟩ "s3"
    [("bucket", CtyVal.str "b"), ("key", CtyVal.str "net/state")]
    [("key", CtyVal.str "net/state"), ("bucket", CtyVal.str "b")]
    (by decide) (by decide)).1

/-- Modelled from the spec: `MergeGraphs` is not among the sources (only its
call site in `cmd/cli/main.go` is), so §4.4 of the spec is the authority.  A
node, as the merge operation sees it, is a `State` with an optional path and
the `State`s of its children. -/
structure MNode (St : Type) where
  state : St
  path : Option String
  children : List St
deriving Repr, DecidableEq

/-- Modelled from the spec: a graph, for merging purposes, is its collection
of nodes (one node per `State` for well-formed inputs). -/
abbrev MGraph (St : Type) : Type := List (MNode St)

/-- A well-formed merge input: one node per `State`. -/
def WFg {St : Type} (g : MGraph St) : Prop := (g.map MNode.state).Nodup

instance {St : Type} [DecidableEq St] (g : MGraph St) : Decidable (WFg g) :=
  inferInstanceAs (Decidable ((g.map MNode.state).Nodup))

/-- The graph has a node for this `State`. -/
def hasState {St : Type} (g : MGraph St) (s : St) : Prop := s ∈ g.map MNode.state

/-- The path recorded for a `State` (`none` when absent or external). -/
def pathOfG {St : Type} [DecidableEq St] : MGraph St → St → Option String
  | [], _ => none
  | m :: ms, s => if m.state = s then m.path else pathOfG ms s

/-- The graph records a dependency edge from `s` to `c`. -/
def edgeG {St : Type} (g : MGraph St) (s c : St) : Prop :=
  ∃ m ∈ g, m.state = s ∧ c ∈ m.children

/-- Left-biased option choice (first path wins; merge errors rule out
disagreement). -/
def orO {α : Type} : Option α → Option α → Option α
  | some a, _ => some a
  | none, b => b

/-- Modelled from the spec: union of two children lists (membership union,
keeping the left side's order). -/
def unionL {St : Type} [DecidableEq St] (a b : List St) : List St :=
  a ++ b.filter (fun c => decide (c ∉ a))

/-- Modelled from the spec: combine the paths two inputs record for one
`State`; it is an error when both claim different paths. -/
def mergePaths (a b : Option String) : Except String (Option String) :=
  match a, b with
  | some p, some q => if p = q then .ok (some p) else .error "conflicting paths for one state"
  | some p, none => .ok (some p)
  | none, q => .ok q

/-- Modelled from the spec: insert one node into a graph, unifying it with
the node of the same `State` when there is one — children are unioned and a
present path is preserved. -/
def mergeInto {St : Type} [DecidableEq St] : MGraph St → MNode St → Except String (MGraph St)
  | [], nd => .ok [nd]
  | m :: ms, nd =>
    if m.state = nd.state then
      (mergePaths m.path nd.path).map fun p => ⟨m.state, p, unionL m.children nd.children⟩ :: ms
    else
      (mergeInto ms nd).map fun ms' => m :: ms'

/-- Modelled from the spec: merge the second graph into the first, node by
node. -/
def mergeTwo {St : Type} [DecidableEq St] : MGraph St → MGraph St → Except String (MGraph St)
  | a, [] => .ok a
  | a, nd :: rest =>
    match mergeInto a nd with
    | .error e => .error e
    | .ok a' => mergeTwo a' rest

/-- Modelled from the spec: fold a list of graphs together, starting from
the empty graph. -/
def mergeAll {St : Type} [DecidableEq St] :
    MGraph St → List (MGraph St) → Except String (MGraph St)
  | acc, [] => .ok acc
  | acc, g :: gs =>
    match mergeTwo acc g with
    | .error e => .error e
    | .ok acc' => mergeAll acc' gs

/-- Modelled from the spec: `MergeGraphs(log, graphs...)` as called by the
CLI. -/
def MergeGraphs {St : Type} [DecidableEq St] (gs : List (MGraph St)) :
    Except String (MGraph St) :=
  mergeAll [] gs

theorem mergePaths_ok_orO (a b : Option String) (p : Option String)
    (h : mergePaths a b = .ok p) : p = orO a b := by
  cases a with
  | some pa =>
    cases b with
    | some pb =>
      rw [mergePaths] at h
      split at h
      · next heq =>
        cases h
        rw [orO]
      · cases h
    | none =>
      cases h
      rfl
  | none =>
    cases h
    rfl

theorem mergePaths_ok_compat (a b : Option String) (p : Option String)
    (h : mergePaths a b = .ok p) :
    ∀ x y, a = some x → b = some y → x = y := by
  intro x y hx hy
  subst hx
  subst hy
  rw [mergePaths] at h
  split at h
  · assumption
  · cases h

theorem mem_unionL {St : Type} [DecidableEq St] (a b : List St) (c : St) :
    c ∈ unionL a b ↔ c ∈ a ∨ c ∈ b := by
  rw [unionL, List.mem_append, List.mem_filter]
  constructor
  · rintro (h | ⟨h, _⟩)
    · exact Or.inl h
    · exact Or.inr h
  · rintro (h | h)
    · exact Or.inl h
    · by_cases ha : c ∈ a
      · exact Or.inl ha
      · exact Or.inr ⟨h, by simpa using ha⟩

theorem mergeInto_states_mem {St : Type} [DecidableEq St] (g : MGraph St) (nd : MNode St)
    (g' : MGraph St) (h : mergeInto g nd = .ok g') (s : St) :
    hasState g' s ↔ hasState g s ∨ s = nd.state := by
  induction g generalizing g' with
  | nil =>
    cases h
    simp [hasState, eq_comm]
  | cons m ms ih =>
    rw [mergeInto] at h
    split at h
    · next heq =>
      cases hmp : mergePaths m.path nd.path with
      | error e => rw [hmp] at h; cases h
      | ok p =>
        rw [hmp] at h
        cases h
        simp only [hasState, List.map_cons, List.mem_cons] at *
        constructor
        · rintro (rfl | hmem)
          · exact Or.inl (Or.inl rfl)
          · exact Or.inl (Or.inr hmem)
        · rintro ((rfl | hmem) | rfl)
          · exact Or.inl rfl
          · exact Or.inr hmem
          · exact Or.inl heq.symm
    · next hne =>
      cases hmi : mergeInto ms nd with
      | error e => rw [hmi] at h; cases h
      | ok ms' =>
        rw [hmi] at h
        cases h
        simp only [hasState, List.map_cons, List.mem_cons] at *
        rw [ih ms' hmi]
        tauto

theorem mergeInto_wf {St : Type} [DecidableEq St] (g : MGraph St) (nd : MNode St)
    (g' : MGraph St) (h : mergeInto g nd = .ok g') (hwf : WFg g) : WFg g' := by
  induction g generalizing g' with
  | nil =>
    cases h
    simp [WFg]
  | cons m ms ih =>
    rw [mergeInto] at h
    split at h
    · next heq =>
      cases hmp : mergePaths m.path nd.path with
      | error e => rw [hmp] at h; cases h
      | ok p =>
        rw [hmp] at h
        cases h
        exact hwf
    · next hne =>
      cases hmi : mergeInto ms nd with
      | error e => rw [hmi] at h; cases h
      | ok ms' =>
        rw [hmi] at h
        cases h
        rw [WFg, List.map_cons, List.nodup_cons] at hwf ⊢
        obtain ⟨hm, hms⟩ := hwf
        refine ⟨?_, ih ms' hmi hms⟩
        intro hcontra
        have := (mergeInto_states_mem ms nd ms' hmi m.state).mp hcontra
        rcases this with hmem | heq2
        · exact hm hmem
        · exact hne heq2

theorem mergeInto_path {St : Type} [DecidableEq St] (g : MGraph St) (nd : MNode St)
    (g' : MGraph St) (h : mergeInto g nd = .ok g') (s : St) :
    pathOfG g' s = if s = nd.state then orO (pathOfG g s) nd.path else pathOfG g s := by
  induction g generalizing g' with
  | nil =>
    cases h
    by_cases hs : s = nd.state
    · simp [pathOfG, hs, orO]
    · simp [pathOfG, hs, Ne.symm hs]
  | cons m ms ih =>
    rw [mergeInto] at h
    split at h
    · next heq =>
      cases hmp : mergePaths m.path nd.path with
      | error e => rw [hmp] at h; cases h
      | ok p =>
        rw [hmp] at h
        cases h
        have hp := mergePaths_ok_orO m.path nd.path p hmp
        by_cases hs : s = nd.state
        · rw [if_pos hs, pathOfG, if_pos (heq.trans hs.symm), pathOfG,
            if_pos (heq.trans hs.symm), hp]
        · rw [if_neg hs, pathOfG, if_neg (fun hh => hs (heq ▸ hh).symm ), pathOfG,
            if_neg (fun hh => hs (heq ▸ hh).symm )]
    · next hne =>
      cases hmi : mergeInto ms nd with
      | error e => rw [hmi] at h; cases h
      | ok ms' =>
        rw [hmi] at h
        cases h
        by_cases hms : m.state = s
        · have hsnd : ¬(s = nd.state) := fun hh => hne (hms.trans hh)
          rw [if_neg hsnd, pathOfG, if_pos hms, pathOfG, if_pos hms]
        · rw [pathOfG, if_neg hms, ih ms' hmi, pathOfG, if_neg hms]

theorem mergeInto_compat {St : Type} [DecidableEq St] (g : MGraph St) (nd : MNode St)
    (g' : MGraph St) (h : mergeInto g nd = .ok g') :
    ∀ p q, pathOfG g nd.state = some p → nd.path = some q → p = q := by
  induction g generalizing g' with
  | nil =>
    intro p q hp _
    rw [pathOfG] at hp
    cases hp
  | cons m ms ih =>
    intro p q hp hq
    rw [mergeInto] at h
    split at h
    · next heq =>
      cases hmp : mergePaths m.path nd.path with
      | error e => rw [hmp] at h; cases h
      | ok pp =>
        rw [pathOfG, if_pos heq] at hp
        exact mergePaths_ok_compat m.path nd.path pp hmp p q hp hq
    · next hne =>
      cases hmi : mergeInto ms nd with
      | error e => rw [hmi] at h; cases h
      | ok ms' =>
        rw [pathOfG, if_neg hne] at hp
        exact ih ms' hmi p q hp hq

theorem mergeInto_edges {St : Type} [DecidableEq St] (g : MGraph St) (nd : MNode St)
    (g' : MGraph St) (h : mergeInto g nd = .ok g') (hwf : WFg g) (s c : St) :
    edgeG g' s c ↔ edgeG g s c ∨ (s = nd.state ∧ c ∈ nd.children) := by
  induction g generalizing g' with
  | nil =>
    cases h
    simp only [edgeG, List.mem_singleton, List.not_mem_nil]
    constructor
    · rintro ⟨m, rfl, hst, hc⟩
      exact Or.inr ⟨hst.symm, hc⟩
    · rintro (⟨m, hmem, _⟩ | ⟨rfl, hc⟩)
      · cases hmem
      · exact ⟨nd, rfl, rfl, hc⟩
  | cons m ms ih =>
    rw [WFg, List.map_cons, List.nodup_cons] at hwf
    obtain ⟨hmnotin, hmswf⟩ := hwf
    rw [mergeInto] at h
    split at h
    · next heq =>
      cases hmp : mergePaths m.path nd.path with
      | error e => rw [hmp] at h; cases h
      | ok p =>
        rw [hmp] at h
        cases h
        simp only [edgeG, List.mem_cons]
        constructor
        · rintro ⟨m', hm', hst, hc⟩
          rcases hm' with rfl | hm'
          · rw [mem_unionL] at hc
            rcases hc with hc | hc
            · exact Or.inl ⟨m, Or.inl rfl, hst, hc⟩
            · exact Or.inr ⟨hst.symm.trans heq, hc⟩
          · exact Or.inl ⟨m', Or.inr hm', hst, hc⟩
        · rintro (⟨m', hm', hst, hc⟩ | ⟨rfl, hc⟩)
          · rcases hm' with rfl | hm'
            · exact ⟨⟨m'.state, p, unionL m'.children nd.children⟩, Or.inl rfl, hst,
                (mem_unionL _ _ _).mpr (Or.inl hc)⟩
            · exact ⟨m', Or.inr hm', hst, hc⟩
          · refine ⟨⟨m.state, p, unionL m.children nd.children⟩, Or.inl rfl, heq, ?_⟩
            exact (mem_unionL _ _ _).mpr (Or.inr hc)
    · next hne =>
      cases hmi : mergeInto ms nd with
      | error e => rw [hmi] at h; cases h
      | ok ms' =>
        rw [hmi] at h
        cases h
        simp only [edgeG, List.mem_cons]
        constructor
        · rintro ⟨m', hm', hst, hc⟩
          rcases hm' with rfl | hm'
          · exact Or.inl ⟨m', Or.inl rfl, hst, hc⟩
          · have := (ih ms' hmi hmswf).mp ⟨m', hm', hst, hc⟩
            rcases this with ⟨m'', hm'', hst'', hc''⟩ | hright
            · exact Or.inl ⟨m'', Or.inr hm'', hst'', hc''⟩
            · exact Or.inr hright
        · rintro (⟨m', hm', hst, hc⟩ | ⟨rfl, hc⟩)
          · rcases hm' with rfl | hm'
            · exact ⟨m', Or.inl rfl, hst, hc⟩
            · have := (ih ms' hmi hmswf).mpr (Or.inl ⟨m', hm', hst, hc⟩)
              obtain ⟨m'', hm'', hst'', hc''⟩ := this
              exact ⟨m'', Or.inr hm'', hst'', hc''⟩
          · have := (ih ms' hmi hmswf).mpr (Or.inr ⟨rfl, hc⟩)
            obtain ⟨m'', hm'', hst'', hc''⟩ := this
            exact ⟨m'', Or.inr hm'', hst'', hc''⟩

theorem orO_none_right {α : Type} (x : Option α) : orO x none = x := by
  cases x <;> rfl

theorem orO_eq_some {α : Type} (x y : Option α) (p : α) :
    orO x y = some p ↔ x = some p ∨ (x = none ∧ y = some p) := by
  cases x <;> simp [orO]

theorem pathOfG_eq_none_of_not_hasState {St : Type} [DecidableEq St] (g : MGraph St) (s : St)
    (h : ¬ hasState g s) : pathOfG g s = none := by
  induction g with
  | nil => rfl
  | cons m ms ih =>
    rw [hasState, List.map_cons, List.mem_cons] at h
    rw [pathOfG, if_neg (fun hh => h (Or.inl hh.symm))]
    exact ih (fun hh => h (Or.inr hh))

theorem pathOfG_cons_self {St : Type} [DecidableEq St] (m : MNode St) (ms : MGraph St)
    (s : St) (h : m.state = s) : pathOfG (m :: ms) s = m.path := by
  rw [pathOfG, if_pos h]

theorem edgeG_cons {St : Type} (m : MNode St) (ms : MGraph St) (s c : St) :
    edgeG (m :: ms) s c ↔ (m.state = s ∧ c ∈ m.children) ∨ edgeG ms s c := by
  simp only [edgeG, List.mem_cons]
  constructor
  · rintro ⟨m', (rfl | hm'), hst, hc⟩
    · exact Or.inl ⟨hst, hc⟩
    · exact Or.inr ⟨m', hm', hst, hc⟩
  · rintro (⟨hst, hc⟩ | ⟨m', hm', hst, hc⟩)
    · exact ⟨m, Or.inl rfl, hst, hc⟩
    · exact ⟨m', Or.inr hm', hst, hc⟩

theorem mergeTwo_wf {St : Type} [DecidableEq St] (b : List (MNode St)) :
    ∀ a g' : MGraph St, mergeTwo a b = .ok g' → WFg a → WFg g' := by
  induction b with
  | nil =>
    intro a g' h ha
    cases h
    exact ha
  | cons nd rest ih =>
    intro a g' h ha
    simp only [mergeTwo] at h
    cases hmi : mergeInto a nd with
    | error e => rw [hmi] at h; cases h
    | ok a' =>
      rw [hmi] at h
      exact ih a' g' h (mergeInto_wf a nd a' hmi ha)

theorem mergeTwo_states {St : Type} [DecidableEq St] (b : List (MNode St)) :
    ∀ a g' : MGraph St, mergeTwo a b = .ok g' →
      ∀ s, hasState g' s ↔ hasState a s ∨ hasState b s := by
  induction b with
  | nil =>
    intro a g' h s
    cases h
    simp [hasState]
  | cons nd rest ih =>
    intro a g' h s
    simp only [mergeTwo] at h
    cases hmi : mergeInto a nd with
    | error e => rw [hmi] at h; cases h
    | ok a' =>
      rw [hmi] at h
      rw [ih a' g' h s, mergeInto_states_mem a nd a' hmi s]
      simp only [hasState, List.map_cons, List.mem_cons]
      tauto

theorem mergeTwo_path {St : Type} [DecidableEq St] (b : List (MNode St)) :
    ∀ a g' : MGraph St, mergeTwo a b = .ok g' → WFg b →
      ∀ s, pathOfG g' s = orO (pathOfG a s) (pathOfG b s) := by
  induction b with
  | nil =>
    intro a g' h _ s
    cases h
    rw [pathOfG, orO_none_right]
  | cons nd rest ih =>
    intro a g' h hwfb s
    rw [WFg, List.map_cons, List.nodup_cons] at hwfb
    obtain ⟨hndnot, hrestwf⟩ := hwfb
    simp only [mergeTwo] at h
    cases hmi : mergeInto a nd with
    | error e => rw [hmi] at h; cases h
    | ok a' =>
      rw [hmi] at h
      rw [ih a' g' h hrestwf s, mergeInto_path a nd a' hmi s]
      by_cases hs : s = nd.state
      · rw [if_pos hs, pathOfG_cons_self nd rest s hs.symm]
        have hnone : pathOfG rest s = none := by
          apply pathOfG_eq_none_of_not_hasState
          rw [hasState]
          rw [hs]
          exact hndnot
        rw [hnone, orO_none_right]
      · rw [if_neg hs, pathOfG, if_neg (fun hh => hs hh.symm)]

theorem mergeTwo_compat {St : Type} [DecidableEq St] (b : List (MNode St)) :
    ∀ a g' : MGraph St, mergeTwo a b = .ok g' →
      ∀ s p q, pathOfG a s = some p → pathOfG b s = some q → p = q := by
  induction b with
  | nil =>
    intro a g' _ s p q _ hq
    rw [pathOfG] at hq
    cases hq
  | cons nd rest ih =>
    intro a g' h s p q hp hq
    simp only [mergeTwo] at h
    cases hmi : mergeInto a nd with
    | error e => rw [hmi] at h; cases h
    | ok a' =>
      rw [hmi] at h
      by_cases hnd : nd.state = s
      · rw [pathOfG, if_pos hnd] at hq
        refine mergeInto_compat a nd a' hmi p q ?_ hq
        rw [← hnd] at hp
        exact hp
      · rw [pathOfG, if_neg hnd] at hq
        have hp' : pathOfG a' s = some p := by
          rw [mergeInto_path a nd a' hmi s, if_neg (fun hh => hnd hh.symm)]
          exact hp
        exact ih a' g' h s p q hp' hq

theorem mergeTwo_edges {St : Type} [DecidableEq St] (b : List (MNode St)) :
    ∀ a g' : MGraph St, mergeTwo a b = .ok g' → WFg a →
      ∀ s c, edgeG g' s c ↔ edgeG a s c ∨ edgeG b s c := by
  induction b with
  | nil =>
    intro a g' h _ s c
    cases h
    simp [edgeG]
  | cons nd rest ih =>
    intro a g' h ha s c
    simp only [mergeTwo] at h
    cases hmi : mergeInto a nd with
    | error e => rw [hmi] at h; cases h
    | ok a' =>
      rw [hmi] at h
      rw [ih a' g' h (mergeInto_wf a nd a' hmi ha) s c,
        mergeInto_edges a nd a' hmi ha s c, edgeG_cons]
      constructor
      · rintro ((he | ⟨rfl, hc⟩) | hrest)
        · exact Or.inl he
        · exact Or.inr (Or.inl ⟨rfl, hc⟩)
        · exact Or.inr (Or.inr hrest)
      · rintro (he | (⟨hst, hc⟩ | hrest))
        · exact Or.inl (Or.inl he)
        · exact Or.inl (Or.inr ⟨hst.symm, hc⟩)
        · exact Or.inr hrest

theorem mergeAll_char {St : Type} [DecidableEq St] (gs : List (MGraph St)) :
    ∀ acc g' : MGraph St, (∀ gi ∈ gs, WFg gi) → WFg acc → mergeAll acc gs = .ok g' →
      WFg g' ∧
        (∀ s, hasState g' s ↔ hasState acc s ∨ ∃ gi ∈ gs, hasState gi s) ∧
        (∀ s p, pathOfG g' s = some p ↔
          pathOfG acc s = some p ∨ ∃ gi ∈ gs, pathOfG gi s = some p) ∧
        (∀ s c, edgeG g' s c ↔ edgeG acc s c ∨ ∃ gi ∈ gs, edgeG gi s c) := by
  induction gs with
  | nil =>
    intro acc g' _ hacc h
    cases h
    refine ⟨hacc, ?_, ?_, ?_⟩ <;> simp
  | cons b gs ih =>
    intro acc g' hwf hacc h
    simp only [mergeAll] at h
    cases hmt : mergeTwo acc b with
    | error e => rw [hmt] at h; cases h
    | ok acc' =>
      rw [hmt] at h
      have hwfb : WFg b := hwf b (List.mem_cons_self b gs)
      have hwfrest : ∀ gi ∈ gs, WFg gi := fun gi hgi => hwf gi (List.mem_cons_of_mem b hgi)
      have hacc' : WFg acc' := mergeTwo_wf b acc acc' hmt hacc
      obtain ⟨hw, hst, hpath, hedge⟩ := ih acc' g' hwfrest hacc' h
      have hcompat := mergeTwo_compat b acc acc' hmt
      refine ⟨hw, ?_, ?_, ?_⟩
      · intro s
        rw [hst s, mergeTwo_states b acc acc' hmt s, List.exists_mem_cons_iff]
        tauto
      · intro s p
        rw [hpath s p, List.exists_mem_cons_iff]
        have hp2 := mergeTwo_path b acc acc' hmt hwfb s
        constructor
        · rintro (hp' | hrest)
          · rw [hp2, orO_eq_some] at hp'
            rcases hp' with hx | ⟨_, hy⟩
            · exact Or.inl hx
            · exact Or.inr (Or.inl hy)
          · exact Or.inr (Or.inr hrest)
        · rintro (hp' | (hb | hrest))
          · left
            rw [hp2, hp']
            rfl
          · left
            rw [hp2]
            cases hacc0 : pathOfG acc s with
            | none =>
              rw [orO_eq_some]
              exact Or.inr ⟨rfl, hb⟩
            | some p' =>
              have := hcompat s p' p hacc0 hb
              subst this
              rfl
          · exact Or.inr hrest
      · intro s c
        rw [hedge s c, mergeTwo_edges b acc acc' hmt hacc s c, List.exists_mem_cons_iff]
        tauto

/-- C5 (spec-modelled, `MergeGraphs` is absent from the sources): merging a
list of well-formed graphs unifies all nodes sharing one `State` into a
single node (the result is well-formed), whose path is exactly the path some
input records for that `State` and whose children are the union of the
inputs' children; two inputs recording different paths for one `State` can
never merge successfully; and the resulting node and edge sets — and every
recorded path — are independent of the order of the input graphs. -/
theorem c5_merge_unifies_order_independent {St : Type} [DecidableEq St]
    (gs : List (MGraph St)) (g : MGraph St) (hwf : ∀ gi ∈ gs, WFg gi)
    (h : MergeGraphs gs = .ok g) :
    WFg g ∧
      (∀ s, hasState g s ↔ ∃ gi ∈ gs, hasState gi s) ∧
      (∀ s p, pathOfG g s = some p ↔ ∃ gi ∈ gs, pathOfG gi s = some p) ∧
      (∀ s c, edgeG g s c ↔ ∃ gi ∈ gs, edgeG gi s c) ∧
      (∀ gi ∈ gs, ∀ gj ∈ gs, ∀ s p q,
        pathOfG gi s = some p → pathOfG gj s = some q → p = q) ∧
      ∀ gs' g', gs.Perm gs' → MergeGraphs gs' = .ok g' →
        (∀ s, hasState g' s ↔ hasState g s) ∧
          (∀ s, pathOfG g' s = pathOfG g s) ∧
          (∀ s c, edgeG g' s c ↔ edgeG g s c) := by
  obtain ⟨hw, hstc, hpathc, hedgec⟩ :=
    mergeAll_char gs [] g hwf (by simp [WFg]) h
  have hstates : ∀ s, hasState g s ↔ ∃ gi ∈ gs, hasState gi s := by
    intro s
    rw [hstc s]
    simp [hasState]
  have hpaths : ∀ s p, pathOfG g s = some p ↔ ∃ gi ∈ gs, pathOfG gi s = some p := by
    intro s p
    rw [hpathc s p]
    simp [pathOfG]
  have hedges : ∀ s c, edgeG g s c ↔ ∃ gi ∈ gs, edgeG gi s c := by
    intro s c
    rw [hedgec s c]
    simp [edgeG]
  refine ⟨hw, hstates, hpaths, hedges, ?_, ?_⟩
  · intro gi hgi gj hgj s p q hpi hpj
    have h1 : pathOfG g s = some p := (hpaths s p).mpr ⟨gi, hgi, hpi⟩
    have h2 : pathOfG g s = some q := (hpaths s q).mpr ⟨gj, hgj, hpj⟩
    rw [h1] at h2
    exact Option.some.inj h2
  · intro gs' g' hperm h'
    have hwf' : ∀ gi ∈ gs', WFg gi := fun gi hgi => hwf gi (hperm.mem_iff.mpr hgi)
    obtain ⟨_, hstc', hpathc', hedgec'⟩ :=
      mergeAll_char gs' [] g' hwf' (by simp [WFg]) h'
    have hstates' : ∀ s, hasState g' s ↔ ∃ gi ∈ gs', hasState gi s := by
      intro s
      rw [hstc' s]
      simp [hasState]
    have hpaths' : ∀ s p, pathOfG g' s = some p ↔ ∃ gi ∈ gs', pathOfG gi s = some p := by
      intro s p
      rw [hpathc' s p]
      simp [pathOfG]
    have hedges' : ∀ s c, edgeG g' s c ↔ ∃ gi ∈ gs', edgeG gi s c := by
      intro s c
      rw [hedgec' s c]
      simp [edgeG]
    refine ⟨?_, ?_, ?_⟩
    · intro s
      rw [hstates' s, hstates s]
      constructor
      · rintro ⟨gi, hgi, hs⟩
        exact ⟨gi, hperm.mem_iff.mpr hgi, hs⟩
      · rintro ⟨gi, hgi, hs⟩
        exact ⟨gi, hperm.mem_iff.mp hgi, hs⟩
    · intro s
      cases hg : pathOfG g s with
      | some p =>
        obtain ⟨gi, hgi, hpi⟩ := (hpaths s p).mp hg
        exact (hpaths' s p).mpr ⟨gi, hperm.mem_iff.mp hgi, hpi⟩
      | none =>
        cases hg' : pathOfG g' s with
        | none => rfl
        | some q =>
          obtain ⟨gi, hgi, hpi⟩ := (hpaths' s q).mp hg'
          have := (hpaths s q).mpr ⟨gi, hperm.mem_iff.mpr hgi, hpi⟩
          rw [hg] at this
          cases this
    · intro s c
      rw [hedges' s c, hedges s c]
      constructor
      · rintro ⟨gi, hgi, he⟩
        exact ⟨gi, hperm.mem_iff.mpr hgi, he⟩
      · rintro ⟨gi, hgi, he⟩
        exact ⟨gi, hperm.mem_iff.mp hgi, he⟩

/-- Witness for C5: an external node for state `"X"` in one graph and a
locally-owned node (path `/x`) in another merge into a single node carrying
the path and the union of children. -/
theorem c5_witness :
    pathOfG [(⟨"X", some "/x", ["A", "B"]⟩ : MNode String)] "X" = some "/x" :=
  ((c5_merge_unifies_order_independent
      [[⟨"X", none, ["A"]⟩], [⟨"X", some "/x", ["B"]⟩]]
      [⟨"X", some "/x", ["A", "B"]⟩]
      (by decide) (by decide)).2.2.1 "X" "/x").mpr
    ⟨[⟨"X", some "/x", ["B"]⟩], by decide, by decide⟩

end Terradep
